import Mathlib

/-
  Verification development for the claude-memory-hook repository.

  Shallow embedding of the core pipeline: query sanitization and OR-fallback
  construction (src/db/mod.rs), the FTS search two-pass driver
  (src/db/sessions.rs), the streaming transcript parser and the snapshot
  parser (src/transcript/parser.rs, src/transcript/copilot.rs), the schema
  manager (src/db/schema.rs) and the ingest orchestrator (src/cli/ingest.rs).

  Strings are modelled as lists of characters; Rust byte-level operations
  (String::len, byte slicing) are modelled through UTF-8 byte sizes
  (Char.utf8Size), so that byte-boundary panics of slicing are observable:
  functions that can panic return Option, with none for a panic.
  Unicode character classes of Rust (char::is_whitespace,
  char::is_alphanumeric) are modelled by their ASCII cores; no claim below
  depends on the difference.
-/

abbrev Str := List Char

/-- Model of Rust char::is_whitespace (ASCII core). -/
def isWsChar (c : Char) : Bool :=
  c = ' ' || c = '\t' || c = '\n' || c = '\r'

/-- Model of Rust char::is_alphanumeric (ASCII core). -/
def isAlnumChar (c : Char) : Bool :=
  c.isAlphanum

/-- UTF-8 byte length of a string, as Rust String::len. -/
def byteLen (s : Str) : Nat :=
  (s.map Char.utf8Size).sum

/-- Model of Rust str::split_whitespace: the accumulator holds the current
word reversed; empty words are dropped. -/
def split_whitespace_aux : Str → Str → List Str
  | acc, [] => if acc.isEmpty then [] else [acc.reverse]
  | acc, c :: rest =>
    if isWsChar c then
      if acc.isEmpty then split_whitespace_aux [] rest
      else acc.reverse :: split_whitespace_aux [] rest
    else split_whitespace_aux (c :: acc) rest

def split_whitespace (s : Str) : List Str :=
  split_whitespace_aux [] s

/-- Model of Rust slice join with a separator. -/
def join_with (sep : Str) : List Str → Str
  | [] => []
  | [w] => w
  | w :: ws => w ++ sep ++ join_with sep ws

/-- First pass of sanitize_fts_query (src/db/mod.rs lines 14-28): a double
quote toggles the in-quotes flag and is kept; inside quotes everything is
kept; outside quotes alphanumerics, whitespace and underscore are kept and
every other character becomes a space. -/
def sanitize_pass (inQuotes : Bool) : Str → Str
  | [] => []
  | c :: rest =>
    if c = '"' then c :: sanitize_pass (!inQuotes) rest
    else if inQuotes = true ∨ isAlnumChar c = true ∨ isWsChar c = true ∨ c = '_' then
      c :: sanitize_pass inQuotes rest
    else ' ' :: sanitize_pass inQuotes rest

/-- sanitize_fts_query (src/db/mod.rs lines 14-32): character pass, then
split_whitespace().join(" ") to collapse whitespace. -/
def sanitize_fts_query (q : Str) : Str :=
  join_with [' '] (split_whitespace (sanitize_pass false q))

/-- The reserved FTS5 boolean-operator words. -/
def reservedWords : List Str :=
  ["AND".toList, "OR".toList, "NOT".toList, "NEAR".toList]

/-- has_explicit_operators (src/db/mod.rs lines 35-39). -/
def has_explicit_operators (q : Str) : Bool :=
  (split_whitespace q).any (fun w => reservedWords.contains w)

/-- build_or_fallback (src/db/mod.rs lines 43-54). -/
def build_or_fallback (q : Str) : Option Str :=
  if has_explicit_operators q then none
  else
    let terms := split_whitespace q
    if terms.length < 2 then none
    else some (join_with (" OR ".toList) terms)

/-- Claim-side single step of the sanitization character scan, phrased as a
fold with explicit state, following the words of the specification. -/
def claim_char_step (st : Bool × Str) (c : Char) : Bool × Str :=
  if c = '"' then (!st.1, st.2 ++ [c])
  else if st.1 = true then (st.1, st.2 ++ [c])
  else if isAlnumChar c = true ∨ isWsChar c = true ∨ c = '_' then (st.1, st.2 ++ [c])
  else (st.1, st.2 ++ [' '])

/-- Claim-side character pass of sanitization. -/
def claim_char_pass (q : Str) : Str :=
  (q.foldl claim_char_step (false, [])).2

/-- Check that no two adjacent characters are both whitespace. -/
def no_ws_run_b : Str → Bool
  | [] => true
  | [_] => true
  | c :: d :: rest => !(isWsChar c && isWsChar d) && no_ws_run_b (d :: rest)

/-- Check that neither end of a string is whitespace. -/
def edge_trimmed (s : Str) : Bool :=
  (match s.head? with
   | none => true
   | some c => !isWsChar c) &&
  (match s.getLast? with
   | none => true
   | some c => !isWsChar c)

/-- Check that every whitespace character of a string is a plain space. -/
def ws_all_space (s : Str) : Bool :=
  s.all (fun c => !isWsChar c || c = ' ')

/-- Model of a decoded serde_json value. Numbers are modelled as integers;
no claim depends on floating-point JSON numbers. -/
inductive Json where
  | null : Json
  | bool : Bool → Json
  | num : Int → Json
  | str : Str → Json
  | arr : List Json → Json
  | obj : List (Str × Json) → Json

/-- Model of serde_json Value::get on an object (first matching key). -/
def Json.getKey : Json → Str → Option Json
  | .obj fields, key => fields.lookup key
  | _, _ => none

/-- Model of Value::as_str. -/
def Json.asStr : Json → Option Str
  | .str s => some s
  | _ => none

/-- Model of Value::as_array. -/
def Json.asArr : Json → Option (List Json)
  | .arr items => some items
  | _ => none

/-- Model of Value::as_u64: only non-negative integers convert. -/
def Json.asU64 : Json → Option Nat
  | .num n => if 0 ≤ n then some n.toNat else none
  | _ => none

/-- get(key).and_then(as_str). -/
def getStrField (v : Json) (key : Str) : Option Str :=
  (v.getKey key).bind Json.asStr

/-- SessionMetadata (src/transcript/metadata.rs). The HashSet fields are
modelled as duplicate-free insertion lists and the HashMap as an
association list. -/
structure SessionMetadata where
  session_id : Str := []
  project_dir : Str := []
  git_branch : Option Str := none
  model : Option Str := none
  first_timestamp : Option Str := none
  last_timestamp : Option Str := none
  duration_seconds : Option Int := none
  user_prompts : List Str := []
  files_modified : List Str := []
  files_read : List Str := []
  commands_run : List Str := []
  git_commits : List Str := []
  tool_counts : List (Str × Nat) := []
  total_input_tokens : Nat := 0
  total_output_tokens : Nat := 0
deriving DecidableEq

/-- Set-style insertion for the HashSet fields. -/
def setInsert (xs : List Str) (x : Str) : List Str :=
  if x ∈ xs then xs else xs ++ [x]

/-- Model of HashMap entry(name).or_insert(0) += 1. -/
def bumpCount : List (Str × Nat) → Str → List (Str × Nat)
  | [], k => [(k, 1)]
  | (k', v) :: rest, k =>
    if k' = k then (k', v + 1) :: rest else (k', v) :: bumpCount rest k

/-- The unique prefix of a string occupying exactly n UTF-8 bytes, or none
when byte offset n is not a character boundary (Rust slicing panics there). -/
def takeBytesExact : Str → Nat → Option Str
  | _, 0 => some []
  | [], _ + 1 => none
  | c :: rest, n + 1 =>
    if c.utf8Size ≤ n + 1 then (takeBytesExact rest (n + 1 - c.utf8Size)).map (c :: ·)
    else none

/-- truncate (src/transcript/parser.rs lines 213-219 and
src/transcript/copilot.rs lines 66-72): keep strings of at most maxLen
bytes; otherwise slice the first maxLen bytes and append an ellipsis.
Returns none when the byte slice panics on a char boundary. -/
def rustTruncate (s : Str) (maxLen : Nat) : Option Str :=
  if byteLen s ≤ maxLen then some s
  else (takeBytesExact s maxLen).map (· ++ "...".toList)

/-- First index at which the pattern occurs as a contiguous substring,
modelling Rust str::find for an ASCII pattern. -/
def findSub : Str → Str → Option Nat
  | s, pat =>
    if pat.isPrefixOf s then some 0
    else
      match s with
      | [] => none
      | _ :: rest => (findSub rest pat).map (· + 1)

/-- First index of a character, modelling str::find(char). -/
def findCharIdx : Str → Char → Option Nat
  | [], _ => none
  | c :: rest, q => if c = q then some 0 else (findCharIdx rest q).map (· + 1)

/-- Model of str::trim_start for the modelled whitespace. -/
def trimStart (s : Str) : Str :=
  s.dropWhile (fun c => isWsChar c)

/-- Model of str::trim. -/
def trimBoth (s : Str) : Str :=
  ((trimStart s).reverse.dropWhile (fun c => isWsChar c)).reverse

/-- extract_commit_message (src/transcript/parser.rs lines 197-211). The
outer Option is the panic monad (none = truncate panicked); the inner
Option is the Rust return value. -/
def extract_commit_message (cmd : Str) : Option (Option Str) :=
  match findSub cmd ("-m ".toList) with
  | none => some none
  | some idx =>
    let rest := trimBoth (cmd.drop (idx + 3))
    match rest with
    | q :: tail =>
      if q = '"' ∨ q = '\'' then
        match findCharIdx tail q with
        | some e => some (some (tail.take e))
        | none => some none
      else (rustTruncate rest 100).map some
    | [] => (rustTruncate rest 100).map some

/-- Collect accepted prompts from an array-valued user content
(src/transcript/parser.rs lines 86-97); none = a truncate panic. -/
def collectArrPrompts : List Json → Option (List Str)
  | [] => some []
  | item :: rest =>
    if (item.getKey ("type".toList)).bind Json.asStr = some ("tool_result".toList) then
      collectArrPrompts rest
    else
      match (item.getKey ("text".toList)).bind Json.asStr with
      | some text =>
        if text.head? ≠ some '<' ∧ text ≠ [] then
          match rustTruncate text 2000 with
          | none => none
          | some p => (collectArrPrompts rest).map (p :: ·)
        else collectArrPrompts rest
      | none => collectArrPrompts rest

/-- extract_user_message (src/transcript/parser.rs lines 70-99), returning
the prompts to append; none = a truncate panic. -/
def extract_user_message (v : Json) : Option (List Str) :=
  match (v.getKey ("message".toList)).bind (fun m => m.getKey ("content".toList)) with
  | none => some []
  | some content =>
    let fromStr : Option (List Str) :=
      match content.asStr with
      | some text =>
        if text.head? ≠ some '<' ∧ text ≠ [] then
          match rustTruncate text 2000 with
          | none => none
          | some p => some [p]
        else some []
      | none => some []
    match fromStr with
    | none => none
    | some ps1 =>
      match content.asArr with
      | some items =>
        match collectArrPrompts items with
        | none => none
        | some ps2 => some (ps1 ++ ps2)
      | none => some ps1

/-- Token-usage accumulation of extract_assistant_message
(src/transcript/parser.rs lines 120-138). -/
def applyUsage (meta : SessionMetadata) (usage : Json) : SessionMetadata :=
  let meta :=
    match (usage.getKey ("input_tokens".toList)).bind Json.asU64 with
    | some n => {meta with total_input_tokens := meta.total_input_tokens + n}
    | none => meta
  let meta :=
    match (usage.getKey ("output_tokens".toList)).bind Json.asU64 with
    | some n => {meta with total_output_tokens := meta.total_output_tokens + n}
    | none => meta
  let meta :=
    match (usage.getKey ("cache_creation_input_tokens".toList)).bind Json.asU64 with
    | some n => {meta with total_input_tokens := meta.total_input_tokens + n}
    | none => meta
  match (usage.getKey ("cache_read_input_tokens".toList)).bind Json.asU64 with
  | some n => {meta with total_input_tokens := meta.total_input_tokens + n}
  | none => meta

/-- Per-item tool-use handling of extract_assistant_message
(src/transcript/parser.rs lines 146-193); none = a truncate panic. -/
def processToolItems : List Json → SessionMetadata → List Str → Option (SessionMetadata × List Str)
  | [], meta, seen => some (meta, seen)
  | item :: rest, meta, seen =>
    if (item.getKey ("type".toList)).bind Json.asStr ≠ some ("tool_use".toList) then
      processToolItems rest meta seen
    else
      match (item.getKey ("name".toList)).bind Json.asStr with
      | none => processToolItems rest meta seen
      | some toolName =>
        let meta := {meta with tool_counts := bumpCount meta.tool_counts toolName}
        let input := item.getKey ("input".toList)
        if toolName = "Write".toList ∨ toolName = "Edit".toList then
          match (input.bind (fun i => i.getKey ("file_path".toList))).bind Json.asStr with
          | some path =>
            processToolItems rest {meta with files_modified := setInsert meta.files_modified path} seen
          | none => processToolItems rest meta seen
        else if toolName = "Read".toList then
          match (input.bind (fun i => i.getKey ("file_path".toList))).bind Json.asStr with
          | some path =>
            processToolItems rest {meta with files_read := setInsert meta.files_read path} seen
          | none => processToolItems rest meta seen
        else if toolName = "Bash".toList then
          match (input.bind (fun i => i.getKey ("command".toList))).bind Json.asStr with
          | none => processToolItems rest meta seen
          | some cmd =>
            match rustTruncate cmd 200 with
            | none => none
            | some truncated =>
              let pair :=
                if meta.commands_run.length < 50 then
                  if truncated ∈ seen then (meta.commands_run, seen)
                  else (meta.commands_run ++ [truncated], seen ++ [truncated])
                else (meta.commands_run, seen)
              let meta := {meta with commands_run := pair.1}
              if (findSub cmd ("git commit".toList)).isSome then
                match extract_commit_message cmd with
                | none => none
                | some (some msg) =>
                  processToolItems rest {meta with git_commits := meta.git_commits ++ [msg]} pair.2
                | some none => processToolItems rest meta pair.2
              else processToolItems rest meta pair.2
        else processToolItems rest meta seen

/-- extract_assistant_message (src/transcript/parser.rs lines 102-194). -/
def extract_assistant_message (v : Json) (meta : SessionMetadata) (seen : List Str) :
    Option (SessionMetadata × List Str) :=
  match v.getKey ("message".toList) with
  | none => some (meta, seen)
  | some message =>
    let meta :=
      if meta.model = none then
        match getStrField message ("model".toList) with
        | some m => {meta with model := some m}
        | none => meta
      else meta
    let meta :=
      match message.getKey ("usage".toList) with
      | some usage => applyUsage meta usage
      | none => meta
    match (message.getKey ("content".toList)).bind Json.asArr with
    | none => some (meta, seen)
    | some content => processToolItems content meta seen

/-- One decoded line of parse_transcript (src/transcript/parser.rs
lines 30-62): timestamp tracking, first-wins metadata fields, then the
event-type dispatch. -/
def processLine (meta : SessionMetadata) (seen : List Str) (v : Json) :
    Option (SessionMetadata × List Str) :=
  let meta :=
    match getStrField v ("timestamp".toList) with
    | some ts =>
      let meta :=
        if meta.first_timestamp = none then {meta with first_timestamp := some ts} else meta
      {meta with last_timestamp := some ts}
    | none => meta
  let meta :=
    if meta.session_id = [] then
      match getStrField v ("sessionId".toList) with
      | some sid => {meta with session_id := sid}
      | none => meta
    else meta
  let meta :=
    if meta.project_dir = [] then
      match getStrField v ("cwd".toList) with
      | some cwd => {meta with project_dir := cwd}
      | none => meta
    else meta
  let meta :=
    if meta.git_branch = none then
      match getStrField v ("gitBranch".toList) with
      | some b => {meta with git_branch := some b}
      | none => meta
    else meta
  match getStrField v ("type".toList) with
  | some t =>
    if t = "user".toList then
      match extract_user_message v with
      | none => none
      | some ps => some ({meta with user_prompts := meta.user_prompts ++ ps}, seen)
    else if t = "assistant".toList then extract_assistant_message v meta seen
    else some (meta, seen)
  | none => some (meta, seen)

/-- The line loop of parse_transcript. A none line is one that is blank or
fails to decode as JSON and is skipped. -/
def foldLines : SessionMetadata → List Str → List (Option Json) → Option SessionMetadata
  | meta, _, [] => some meta
  | meta, seen, none :: rest => foldLines meta seen rest
  | meta, seen, some v :: rest =>
    match processLine meta seen v with
    | none => none
    | some (m, s) => foldLines m s rest

/-- compute_duration (src/transcript/metadata.rs lines 30-39); the chrono
RFC-3339 parser is abstracted as the parameter parseTs. -/
def compute_duration (parseTs : Str → Option Int) (meta : SessionMetadata) : SessionMetadata :=
  match meta.first_timestamp, meta.last_timestamp with
  | some f, some l =>
    match parseTs f, parseTs l with
    | some a, some b => {meta with duration_seconds := some (b - a)}
    | _, _ => meta
  | _, _ => meta

/-- parse_transcript (src/transcript/parser.rs lines 13-67) on the decoded
line sequence of a readable file; none = a panic inside the stream loop. -/
def parse_transcript (parseTs : Str → Option Int) (lines : List (Option Json)) :
    Option SessionMetadata :=
  (foldLines {} [] lines).map (compute_duration parseTs)

/-- One turn of the Copilot snapshot format. -/
structure CopilotTurn where
  role : Str
  content : Str
deriving DecidableEq

/-- The deserialized Copilot snapshot document (src/transcript/copilot.rs
lines 22-29). -/
structure CopilotTranscript where
  session_id : Option Str := none
  cwd : Option Str := none
  captured_at : Option Str := none
  model : Option Str := none
  turns : List CopilotTurn := []
deriving DecidableEq

/-- The turn loop of parse_copilot_json (src/transcript/copilot.rs
lines 57-61); none = a truncate panic. -/
def copilotTurnsFold : List CopilotTurn → SessionMetadata → Option SessionMetadata
  | [], meta => some meta
  | turn :: rest, meta =>
    if turn.role = "user".toList ∧ trimBoth turn.content ≠ [] then
      match rustTruncate turn.content 2000 with
      | none => none
      | some p => copilotTurnsFold rest {meta with user_prompts := meta.user_prompts ++ [p]}
    else copilotTurnsFold rest meta

/-- parse_copilot_json (src/transcript/copilot.rs lines 39-64) after
deserialization; the uuid generator is abstracted as freshId. -/
def parse_copilot_json (freshId : Str) (t : CopilotTranscript) : Option SessionMetadata :=
  let meta : SessionMetadata := {}
  let meta := {meta with session_id := t.session_id.getD freshId}
  let meta := {meta with project_dir := (t.cwd).getD []}
  let meta := {meta with model := t.model}
  let meta :=
    match t.captured_at with
    | some ts => {meta with first_timestamp := some ts, last_timestamp := some ts}
    | none => meta
  copilotTurnsFold t.turns meta

/-- A persisted sessions row (src/db/sessions.rs lines 6-24). Collection
fields hold their JSON-encoded text, as in the store. -/
structure SessionRow where
  id : Str
  project_dir : Str
  git_branch : Option Str
  started_at : Str
  ended_at : Option Str
  duration_seconds : Option Int
  model : Option Str
  user_prompts : Str
  files_modified : Str
  files_read : Str
  commands_run : Str
  git_commits : Str
  tools_used : Str
  input_tokens : Int
  output_tokens : Int
  summary : Option Str := none
deriving DecidableEq

/-- Model of serde_json string encoding (escaping of quote and backslash;
control-character escapes are not exercised by any claim). -/
def jsonStrEnc (s : Str) : Str :=
  '"' :: s.foldr (fun c acc => if c = '"' ∨ c = '\\' then '\\' :: c :: acc else c :: acc) ['"']

/-- Model of serde_json encoding of a string list. -/
def jsonListEnc (xs : List Str) : Str :=
  '[' :: (join_with [','] (xs.map jsonStrEnc) ++ [']'])

/-- Model of serde_json encoding of a string-to-count map. -/
def jsonMapEnc (m : List (Str × Nat)) : Str :=
  '\x7b' :: (join_with [','] (m.map fun p => jsonStrEnc p.1 ++ ':' :: (toString p.2).toList) ++ ['\x7d'])

/-- Two-complement reinterpretation of a u64 as an i64 (the
as-i64 casts in insert_session). -/
def u64AsI64 (n : Nat) : Int :=
  let m : Nat := n % (2 ^ 64)
  if m < 2 ^ 63 then (m : Int) else (m : Int) - 2 ^ 64

/-- The row written by insert_session (src/db/sessions.rs lines 37-72):
a missing first timestamp is stored as the literal text "unknown". -/
def rowOfMeta (meta : SessionMetadata) : SessionRow :=
  { id := meta.session_id
    project_dir := meta.project_dir
    git_branch := meta.git_branch
    started_at := (meta.first_timestamp).getD ("unknown".toList)
    ended_at := meta.last_timestamp
    duration_seconds := meta.duration_seconds
    model := meta.model
    user_prompts := jsonListEnc meta.user_prompts
    files_modified := jsonListEnc meta.files_modified
    files_read := jsonListEnc meta.files_read
    commands_run := jsonListEnc meta.commands_run
    git_commits := jsonListEnc meta.git_commits
    tools_used := jsonMapEnc meta.tool_counts
    input_tokens := u64AsI64 meta.total_input_tokens
    output_tokens := u64AsI64 meta.total_output_tokens
    summary := none }

inductive DbErr where
  | uniqueViolation : DbErr
deriving DecidableEq

/-- session_exists (src/db/sessions.rs lines 27-34). -/
def session_exists (store : List SessionRow) (sid : Str) : Bool :=
  store.any (fun r => r.id = sid)

/-- insert_session (src/db/sessions.rs lines 37-72): the sessions primary
key rejects a duplicate identifier. -/
def insert_session (store : List SessionRow) (meta : SessionMetadata) :
    Except DbErr (List SessionRow) :=
  if session_exists store meta.session_id then .error .uniqueViolation
  else .ok (store ++ [rowOfMeta meta])

/-- search_sessions (src/db/sessions.rs lines 78-100). The FTS engine is
abstracted as the oracle f from a MATCH expression to ranked rows. -/
def search_sessions (f : Str → Except DbErr (List SessionRow)) (query : Str) :
    Except DbErr (List SessionRow × Bool) :=
  let sanitized := sanitize_fts_query query
  match f sanitized with
  | .error e => .error e
  | .ok rows =>
    if rows ≠ [] then .ok (rows, false)
    else
      match build_or_fallback sanitized with
      | some orQuery =>
        match f orQuery with
        | .error e => .error e
        | .ok fallbackRows =>
          if fallbackRows ≠ [] then .ok (fallbackRows, true) else .ok ([], false)
      | none => .ok ([], false)

/-- Byte-lexicographic order of SQLite text comparison (on UTF-8 text the
codepoint order coincides with the byte order). -/
def lexLe : Str → Str → Bool
  | [], _ => true
  | _ :: _, [] => false
  | x :: xs, y :: ys => if x = y then lexLe xs ys else decide (x.toNat < y.toNat)

/-- The started_at date window of list_sessions (src/db/sessions.rs
lines 163-170): started_at >= from AND started_at <= to. -/
def passes_date_filter (r : SessionRow) (dateFrom dateTo : Option Str) : Bool :=
  (match dateFrom with
   | none => true
   | some d => lexLe d r.started_at) &&
  (match dateTo with
   | none => true
   | some d => lexLe r.started_at d)

/-- Insertion into a started_at-descending list. -/
def insertDesc (r : SessionRow) : List SessionRow → List SessionRow
  | [] => [r]
  | x :: xs => if lexLe x.started_at r.started_at then r :: x :: xs else x :: insertDesc r xs

/-- list_sessions (src/db/sessions.rs lines 147-202): filter by the date
window, order by started_at descending, cap at the limit. -/
def list_sessions (store : List SessionRow) (limit : Nat)
    (dateFrom dateTo : Option Str) : List SessionRow :=
  ((store.filter (fun r => passes_date_filter r dateFrom dateTo)).foldr insertDesc []).take limit

/-- The schema-relevant state of a store file: which tables and triggers
exist, and the rows of schema_version. -/
structure DbState where
  versionTable : Bool := false
  sessionsTable : Bool := false
  notesTable : Bool := false
  versionRows : List Int := []
  sessionsFts : Bool := false
  notesFts : Bool := false
  sessionsTriggers : Bool := false
  notesTriggers : Bool := false
deriving DecidableEq

inductive SqlErr where
  | tableExists : SqlErr
  | triggerExists : SqlErr
deriving DecidableEq

def CURRENT_VERSION : Int := 1

def listMaxInt : List Int → Option Int
  | [] => none
  | x :: xs =>
    match listMaxInt xs with
    | none => some x
    | some m => some (max x m)

/-- get_schema_version (src/db/schema.rs lines 62-72): the highest version
row, 0 when the table is empty; a failing query (missing table) is
absorbed to 0 by .ok(). -/
def get_schema_version (s : DbState) : Int :=
  if s.versionTable then (listMaxInt s.versionRows).getD 0 else 0

/-- set_schema_version (src/db/schema.rs lines 75-79): delete all rows,
insert the one new version row. -/
def set_schema_version (s : DbState) (v : Int) : DbState :=
  {s with versionRows := [v]}

/-- migrate_v0_to_v1 (src/db/schema.rs lines 95-181): drop the FTS shadow
tables and triggers if present, then recreate them (plain CREATE: an
existing object would be an error), then rebuild (reads only). -/
def migrate_v0_to_v1 (s : DbState) : Except SqlErr DbState :=
  let s := {s with sessionsTriggers := false, sessionsFts := false}
  let s := {s with notesTriggers := false, notesFts := false}
  if s.sessionsFts then .error .tableExists
  else
    let s := {s with sessionsFts := true}
    if s.sessionsTriggers then .error .triggerExists
    else
      let s := {s with sessionsTriggers := true}
      if s.notesFts then .error .tableExists
      else
        let s := {s with notesFts := true}
        if s.notesTriggers then .error .triggerExists
        else .ok {s with notesTriggers := true}

/-- run_migrations (src/db/schema.rs lines 82-89). -/
def run_migrations (s : DbState) (fromVersion : Int) : Except SqlErr DbState :=
  if fromVersion < 1 then
    match migrate_v0_to_v1 s with
    | .error e => .error e
    | .ok s' => .ok (set_schema_version s' CURRENT_VERSION)
  else .ok (set_schema_version s CURRENT_VERSION)

/-- ensure_schema (src/db/schema.rs lines 8-59): CREATE TABLE IF NOT
EXISTS for the base tables (a freshly created table is empty), read the
version, run pending migrations when below the current version. -/
def ensure_schema (s : DbState) : Except SqlErr DbState :=
  let s :=
    { s with
      versionTable := true
      sessionsTable := true
      notesTable := true
      versionRows := if s.versionTable then s.versionRows else [] }
  let version := get_schema_version s
  if version < CURRENT_VERSION then run_migrations s version else .ok s

/-- Hook input of the Claude ingest path (src/cli/ingest.rs lines 13-20),
restricted to the fields the orchestration logic reads. -/
structure HookInput where
  session_id : Option Str := none
  cwd : Option Str := none
deriving DecidableEq

/-- The orchestration core of run_claude (src/cli/ingest.rs lines 69-99),
from the idempotency check to the insert: path resolution, store opening
and hook-JSON decoding are external. The outer Option is the panic monad
of the parser. -/
def run_claude_core (parseTs : Str → Option Int) (freshId : Str) (projectDir : Str)
    (hook : HookInput) (lines : List (Option Json)) (store : List SessionRow) :
    Option (Except DbErr (List SessionRow)) :=
  let ingest : Option (Except DbErr (List SessionRow)) :=
    match parse_transcript parseTs lines with
    | none => none
    | some meta =>
      let meta :=
        if meta.session_id = [] then
          {meta with session_id := (hook.session_id).getD freshId}
        else meta
      let meta :=
        if meta.project_dir = [] then {meta with project_dir := projectDir} else meta
      if meta.user_prompts = [] then some (.ok store)
      else some (insert_session store meta)
  match hook.session_id with
  | some sid => if session_exists store sid then some (.ok store) else ingest
  | none => ingest

/-- The state ensure_schema produces (helper for reasoning; the model of
ensure_schema never fails because the migration drops before creating). -/
def ensureResult (s : DbState) : DbState :=
  let rows := if s.versionTable then s.versionRows else []
  if (listMaxInt rows).getD 0 < 1 then
    { versionTable := true, sessionsTable := true, notesTable := true,
      versionRows := [1], sessionsFts := true, notesFts := true,
      sessionsTriggers := true, notesTriggers := true }
  else
    { s with
      versionTable := true
      sessionsTable := true
      notesTable := true
      versionRows := rows }

/-- The store state after a successful fresh open. -/
def dbV1 : DbState :=
  { versionTable := true, sessionsTable := true, notesTable := true,
    versionRows := [1], sessionsFts := true, notesFts := true,
    sessionsTriggers := true, notesTriggers := true }

deriving instance DecidableEq for Except

/-- A stored session with id s1, used as the concrete re-ingest target. -/
def ingestMetaS1 : SessionMetadata :=
  { session_id := "s1".toList, user_prompts := ["p".toList] }

/-- A transcript line carrying session id s1 and one ordinary prompt. -/
def ingestLineS1 : Json :=
  Json.obj [("type".toList, Json.str ("user".toList)),
            ("sessionId".toList, Json.str ("s1".toList)),
            ("message".toList, Json.obj [("content".toList, Json.str ("hello".toList))])]

/-- The content whose 2000-byte slice point falls inside a two-byte
character: 1999 one-byte characters followed by one two-byte character. -/
def evilText : Str := List.replicate 1999 'a' ++ ['é']

/-- A streaming-format user line whose message content is the plain string
t, with no other fields. -/
def simpleUserLine (t : Str) : Json :=
  Json.obj [("type".toList, Json.str ("user".toList)),
            ("message".toList, Json.obj [("content".toList, Json.str t)])]

/-- The snapshot document with one user turn of 1001 two-byte characters
(1001 characters, 2002 UTF-8 bytes). -/
def copilotDoc1001 : CopilotTranscript :=
  { turns := [{ role := "user".toList, content := List.replicate 1001 'é' }] }

/-- The first-wins metadata merge of one decoded line
(src/transcript/parser.rs lines 31-54), factored out of processLine. -/
def mergeIds (m : SessionMetadata) (v : Json) : SessionMetadata :=
  let meta :=
    match getStrField v ("timestamp".toList) with
    | some ts =>
      let meta :=
        if m.first_timestamp = none then {m with first_timestamp := some ts} else m
      {meta with last_timestamp := some ts}
    | none => m
  let meta :=
    if meta.session_id = [] then
      match getStrField v ("sessionId".toList) with
      | some sid => {meta with session_id := sid}
      | none => meta
    else meta
  let meta :=
    if meta.project_dir = [] then
      match getStrField v ("cwd".toList) with
      | some cwd => {meta with project_dir := cwd}
      | none => meta
    else meta
  if meta.git_branch = none then
    match getStrField v ("gitBranch".toList) with
    | some b => {meta with git_branch := some b}
    | none => meta
  else meta

/-- The metadata fields that assistant-event tool handling never writes. -/
def sameIdFields (a b : SessionMetadata) : Prop :=
  a.session_id = b.session_id ∧ a.project_dir = b.project_dir ∧
  a.git_branch = b.git_branch ∧ a.first_timestamp = b.first_timestamp ∧
  a.last_timestamp = b.last_timestamp ∧ a.duration_seconds = b.duration_seconds ∧
  a.user_prompts = b.user_prompts

/-- The sessionId values carried by the decoded lines, in stream order. -/
def sidsOf (lines : List (Option Json)) : List Str :=
  lines.filterMap (fun l => l.bind (fun v => getStrField v ("sessionId".toList)))

/-- The cwd values carried by the decoded lines, in stream order. -/
def cwdsOf (lines : List (Option Json)) : List Str :=
  lines.filterMap (fun l => l.bind (fun v => getStrField v ("cwd".toList)))

/-- The gitBranch values carried by the decoded lines, in stream order. -/
def branchesOf (lines : List (Option Json)) : List Str :=
  lines.filterMap (fun l => l.bind (fun v => getStrField v ("gitBranch".toList)))

/-- The timestamp values carried by the decoded lines, in stream order. -/
def tssOf (lines : List (Option Json)) : List Str :=
  lines.filterMap (fun l => l.bind (fun v => getStrField v ("timestamp".toList)))

/-- The first non-empty string of a list, or the empty string. -/
def first_nonempty (xs : List Str) : Str :=
  (xs.filter (fun s => !s.isEmpty)).headD []

/-- A metadata value with no first timestamp but a last timestamp and a
duration, reachable for the raw insert but not from the parsers. -/
def metaNoFirst : SessionMetadata :=
  { session_id := "s".toList, last_timestamp := some ("2025".toList),
    duration_seconds := some 5 }

/-- The prompt text contributed by one array-content block
(src/transcript/parser.rs lines 87-97): a block that is not a tool_result
and whose text field is a string passing the filter (non-empty, not
starting with a less-than sign) contributes that text. -/
def arrItemText (item : Json) : Option Str :=
  if (item.getKey ("type".toList)).bind Json.asStr = some ("tool_result".toList) then none
  else
    match (item.getKey ("text".toList)).bind Json.asStr with
    | some text => if text.head? ≠ some '<' ∧ text ≠ [] then some text else none
    | none => none

/-- The qualifying prompt texts contributed by one line of the stream: a
user event contributes its plain string content when that passes the
filter, followed by the accepted texts of its array blocks; assistant
events, other event types and undecoded lines contribute none. -/
def lineUserTexts : Option Json → List Str
  | none => []
  | some v =>
    if getStrField v ("type".toList) = some ("user".toList) then
      match (v.getKey ("message".toList)).bind (fun m => m.getKey ("content".toList)) with
      | none => []
      | some content =>
        (match content.asStr with
         | some text => if text.head? ≠ some '<' ∧ text ≠ [] then [text] else []
         | none => []) ++
        (match content.asArr with
         | some items => items.filterMap arrItemText
         | none => [])
    else []

/-- All qualifying prompt texts of a transcript, in stream order. -/
def transcriptUserTexts : List (Option Json) → List Str
  | [] => []
  | l :: rest => lineUserTexts l ++ transcriptUserTexts rest

/-- A mixed stream: a skipped line, an assistant event, and one user event
whose array content holds a tool_result block and two text blocks. -/
def mixedLines : List (Option Json) :=
  [none,
   some (Json.obj [("type".toList, Json.str ("assistant".toList))]),
   some (Json.obj [("type".toList, Json.str ("user".toList)),
     ("message".toList, Json.obj [("content".toList, Json.arr
       [Json.obj [("type".toList, Json.str ("tool_result".toList)),
         ("text".toList, Json.str ("skip".toList))],
        Json.obj [("text".toList, Json.str ("one".toList))],
        Json.obj [("text".toList, Json.str ("two".toList))]])])])]

theorem claim_char_fold_eq (q : Str) :
    ∀ (b : Bool) (out : Str),
      (List.foldl claim_char_step (b, out) q).2 = out ++ sanitize_pass b q := by
  induction q with
  | nil => intro b out; simp [sanitize_pass]
  | cons c rest ih =>
    intro b out
    by_cases hq : c = '"'
    · simp [claim_char_step, sanitize_pass, hq, ih]
    · by_cases hk : b = true ∨ isAlnumChar c = true ∨ isWsChar c = true ∨ c = '_'
      · rcases hk with hb | hk
        · subst hb
          simp [claim_char_step, sanitize_pass, hq, ih]
        · by_cases hb : b = true
          · subst hb
            simp [claim_char_step, sanitize_pass, hq, hk, ih]
          · have hb' : b = false := by
              cases b
              · rfl
              · exact absurd rfl hb
            subst hb'
            simp [claim_char_step, sanitize_pass, hq, hk, ih]
      · push_neg at hk
        obtain ⟨hb, hk2⟩ := hk
        have hb' : b = false := by
          cases b
          · rfl
          · exact absurd rfl hb
        subst hb'
        simp [claim_char_step, sanitize_pass, hq, hk2, ih]

theorem claim_char_pass_eq (q : Str) : claim_char_pass q = sanitize_pass false q := by
  simpa [claim_char_pass] using claim_char_fold_eq q false []

theorem split_whitespace_aux_words_ok (s : Str) :
    ∀ (acc : Str), (∀ c ∈ acc, isWsChar c = false) →
      ∀ w ∈ split_whitespace_aux acc s, w ≠ [] ∧ ∀ c ∈ w, isWsChar c = false := by
  induction s with
  | nil =>
    intro acc hacc w hw
    by_cases he : acc.isEmpty
    · simp [split_whitespace_aux, he] at hw
    · simp [split_whitespace_aux, he] at hw
      subst hw
      constructor
      · simp
        intro h
        subst h
        simp at he
      · intro c hc
        exact hacc c (List.mem_reverse.mp hc)
  | cons c rest ih =>
    intro acc hacc w hw
    by_cases hws : isWsChar c
    · by_cases he : acc.isEmpty
      · simp [split_whitespace_aux, hws, he] at hw
        exact ih [] (by simp) w hw
      · simp [split_whitespace_aux, hws, he] at hw
        rcases hw with hw | hw
        · subst hw
          constructor
          · simp
            intro h
            subst h
            simp at he
          · intro x hx
            exact hacc x (List.mem_reverse.mp hx)
        · exact ih [] (by simp) w hw
    · simp [split_whitespace_aux, hws] at hw
      refine ih (c :: acc) ?_ w hw
      intro x hx
      rcases List.mem_cons.mp hx with hx | hx
      · subst hx
        simpa using hws
      · exact hacc x hx

theorem no_ws_run_append (xs ys : Str)
    (hxs : ∀ c ∈ xs, isWsChar c = false) (hys : no_ws_run_b ys = true) :
    no_ws_run_b (xs ++ ys) = true := by
  induction xs with
  | nil => simpa
  | cons c tail ih =>
    have hc : isWsChar c = false := hxs c (by simp)
    have htail : ∀ x ∈ tail, isWsChar x = false := fun x hx => hxs x (by simp [hx])
    cases tail with
    | nil =>
      cases ys with
      | nil => simp [no_ws_run_b]
      | cons y ys' =>
        simp only [List.nil_append, List.cons_append]
        simp [no_ws_run_b, hc]
        simpa using hys
    | cons d tail' =>
      simp only [List.cons_append]
      have := ih htail
      simp only [List.cons_append] at this
      simp [no_ws_run_b, hc, this]

theorem no_ws_run_of_ws_free (xs : Str) (hxs : ∀ c ∈ xs, isWsChar c = false) :
    no_ws_run_b xs = true := by
  have := no_ws_run_append xs [] hxs (by simp [no_ws_run_b])
  simpa using this

theorem join_with_space_head (w : Str) (ws : List Str) (hw : w ≠ []) :
    (join_with [' '] (w :: ws)).head? = w.head? := by
  cases ws with
  | nil => simp [join_with]
  | cons w' ws' =>
    simp only [join_with]
    rw [List.append_assoc, List.head?_append]
    cases w with
    | nil => exact absurd rfl hw
    | cons c cs => simp

theorem join_with_space_ne_nil (w : Str) (ws : List Str) (hw : w ≠ []) :
    join_with [' '] (w :: ws) ≠ [] := by
  cases ws with
  | nil => simpa [join_with]
  | cons w' ws' =>
    simp only [join_with]
    intro h
    rcases List.append_eq_nil.mp h with ⟨h1, _⟩
    rcases List.append_eq_nil.mp h1 with ⟨_, h3⟩
    simp at h3

theorem join_with_space_props (ws : List Str)
    (h : ∀ w ∈ ws, w ≠ [] ∧ ∀ c ∈ w, isWsChar c = false) :
    no_ws_run_b (join_with [' '] ws) = true ∧
    edge_trimmed (join_with [' '] ws) = true ∧
    ws_all_space (join_with [' '] ws) = true := by
  induction ws with
  | nil => simp [join_with, no_ws_run_b, edge_trimmed, ws_all_space]
  | cons w ws' ih =>
    obtain ⟨hwne, hwfree⟩ := h w (by simp)
    have hrest : ∀ v ∈ ws', v ≠ [] ∧ ∀ c ∈ v, isWsChar c = false :=
      fun v hv => h v (by simp [hv])
    cases ws' with
    | nil =>
      refine ⟨no_ws_run_of_ws_free w hwfree, ?_, ?_⟩
      · simp only [join_with, edge_trimmed]
        cases hh : w.head? with
        | none => simp at hh; exact absurd hh hwne
        | some c =>
          have hc := hwfree c (List.mem_of_mem_head? (by simp [hh]))
          cases hl : w.getLast? with
          | none => simp [List.getLast?_eq_none_iff] at hl; exact absurd hl hwne
          | some d =>
            have hd := hwfree d (List.mem_of_mem_getLast? (by simp [hl]))
            simp [hh, hl, hc, hd]
      · simp only [join_with, ws_all_space, List.all_eq_true]
        intro c hc
        simp [hwfree c hc]
    | cons w2 ws2 =>
      obtain ⟨ihrun, ihedge, ihall⟩ := ih hrest
      obtain ⟨hw2ne, _⟩ := hrest w2 (by simp)
      have hjne : join_with [' '] (w2 :: ws2) ≠ [] := join_with_space_ne_nil w2 ws2 hw2ne
      have hjoin : join_with [' '] (w :: w2 :: ws2)
          = w ++ (' ' :: join_with [' '] (w2 :: ws2)) := by
        simp [join_with]
      refine ⟨?_, ?_, ?_⟩
      · rw [hjoin]
        refine no_ws_run_append w _ hwfree ?_
        cases hj : join_with [' '] (w2 :: ws2) with
        | nil => exact absurd hj hjne
        | cons j js =>
          have hjh : (join_with [' '] (w2 :: ws2)).head? = w2.head? :=
            join_with_space_head w2 ws2 hw2ne
          rw [hj] at hjh
          cases hh2 : w2.head? with
          | none => simp at hh2; exact absurd hh2 hw2ne
          | some c2 =>
            rw [hh2] at hjh
            have hj0 : j = c2 := by simpa using hjh
            have hc2 : isWsChar c2 = false := by
              obtain ⟨_, hfree2⟩ := hrest w2 (by simp)
              exact hfree2 c2 (List.mem_of_mem_head? (by simp [hh2]))
            rw [hj] at ihrun
            subst hj0
            simp [no_ws_run_b, hc2, ihrun]
      · rw [hjoin]
        obtain ⟨c, cs, rfl⟩ := List.exists_cons_of_ne_nil hwne
        simp only [edge_trimmed] at ihedge ⊢
        rw [Bool.and_eq_true] at ihedge
        obtain ⟨ih1, ih2⟩ := ihedge
        have h2 : ((c :: cs) ++ ' ' :: join_with [' '] (w2 :: ws2)).getLast?
            = (join_with [' '] (w2 :: ws2)).getLast? := by
          rw [List.getLast?_append_of_ne_nil _ (by simp)]
          exact List.getLast?_append_of_ne_nil [' '] hjne
        rw [h2]
        simp only [List.cons_append, List.head?_cons]
        have hc : isWsChar c = false := hwfree c (by simp)
        rw [Bool.and_eq_true]
        exact ⟨by simp [hc], ih2⟩
      · rw [hjoin]
        simp only [ws_all_space, List.all_eq_true] at ihall ⊢
        intro c hc
        rcases List.mem_append.mp hc with hc | hc
        · simp [hwfree c hc]
        · rcases List.mem_cons.mp hc with hc | hc
          · subst hc; simp
          · exact ihall c hc

/-- C2: sanitize_fts_query performs the claimed character pass (quote
toggling, pass-through inside quotes, alphanumeric/whitespace/underscore
pass-through outside, other characters mapped to a space), then collapses
whitespace runs to single spaces and trims the ends, and maps the quoted
example to itself. -/
theorem sanitize_fts_query_matches_claim (q : Str) :
    sanitize_fts_query q = join_with [' '] (split_whitespace (claim_char_pass q)) ∧
    no_ws_run_b (sanitize_fts_query q) = true ∧
    edge_trimmed (sanitize_fts_query q) = true ∧
    ws_all_space (sanitize_fts_query q) = true ∧
    sanitize_fts_query ("\"exact phrase\" AND x".toList) = "\"exact phrase\" AND x".toList := by
  have hwords := split_whitespace_aux_words_ok (sanitize_pass false q) [] (by simp)
  have hprops := join_with_space_props (split_whitespace (sanitize_pass false q))
    (by intro w hw; exact hwords w hw)
  refine ⟨?_, ?_, ?_, ?_, by decide⟩
  · rw [claim_char_pass_eq]
    rfl
  · exact hprops.1
  · exact hprops.2.1
  · exact hprops.2.2

/-- C3: build_or_fallback returns none exactly when the sanitized query
contains a reserved boolean-operator token or fewer than two terms, and
otherwise joins the terms with OR; the three documented examples hold. -/
theorem build_or_fallback_matches_claim (q : Str) :
    build_or_fallback q =
      (if (∃ w ∈ split_whitespace q, w ∈ reservedWords) ∨ (split_whitespace q).length < 2
       then none
       else some (join_with (" OR ".toList) (split_whitespace q))) ∧
    build_or_fallback ("install MCP server".toList) = some ("install OR MCP OR server".toList) ∧
    build_or_fallback ("install".toList) = none ∧
    build_or_fallback ("a AND b".toList) = none := by
  refine ⟨?_, by decide, by decide, by decide⟩
  by_cases hop : has_explicit_operators q = true
  · have hex : ∃ w ∈ split_whitespace q, w ∈ reservedWords := by
      rw [has_explicit_operators, List.any_eq_true] at hop
      obtain ⟨w, hw, hmem⟩ := hop
      exact ⟨w, hw, by simpa using hmem⟩
    simp [build_or_fallback, hop, hex]
  · have hnex : ¬ ∃ w ∈ split_whitespace q, w ∈ reservedWords := by
      intro ⟨w, hw, hmem⟩
      apply hop
      rw [has_explicit_operators, List.any_eq_true]
      exact ⟨w, hw, by simpa using hmem⟩
    by_cases hlen : (split_whitespace q).length < 2
    · simp [build_or_fallback, hop, hnex, hlen]
    · simp [build_or_fallback, hop, hnex, hlen]

/-- C1: search_sessions runs the sanitized query first as the implicit-AND
pass; the OR pass runs only when the first pass returns zero rows and
build_or_fallback yields a query; the returned flag is true exactly when
the returned rows came from the OR pass; and when both passes return zero
rows the result is the empty list with a success outcome. -/
theorem search_sessions_two_pass (f : Str → Except DbErr (List SessionRow)) (q : Str)
    (aRows : List SessionRow) (hA : f (sanitize_fts_query q) = .ok aRows) :
    (aRows ≠ [] → search_sessions f q = .ok (aRows, false)) ∧
    (aRows = [] → build_or_fallback (sanitize_fts_query q) = none →
      search_sessions f q = .ok ([], false)) ∧
    (∀ orQuery oRows, aRows = [] →
      build_or_fallback (sanitize_fts_query q) = some orQuery → f orQuery = .ok oRows →
      search_sessions f q =
        .ok (if oRows = [] then (([] : List SessionRow), false) else (oRows, true))) ∧
    (∀ res flag, search_sessions f q = .ok (res, flag) →
      (flag = true ↔ res ≠ [] ∧ aRows = [])) := by
  have step1 : aRows ≠ [] → search_sessions f q = .ok (aRows, false) := by
    intro hne
    simp only [search_sessions]
    rw [hA]
    simp [hne]
  have step2 : aRows = [] → build_or_fallback (sanitize_fts_query q) = none →
      search_sessions f q = .ok ([], false) := by
    intro h0 hbof
    subst h0
    simp only [search_sessions]
    rw [hA]
    simp [hbof]
  have step3 : ∀ orQuery oRows, aRows = [] →
      build_or_fallback (sanitize_fts_query q) = some orQuery → f orQuery = .ok oRows →
      search_sessions f q =
        .ok (if oRows = [] then (([] : List SessionRow), false) else (oRows, true)) := by
    intro orQuery oRows h0 hbof hOr
    subst h0
    simp only [search_sessions]
    rw [hA]
    simp only [ne_eq, not_true_eq_false, if_false, hbof]
    rw [hOr]
    by_cases ho : oRows = []
    · simp [ho]
    · simp [ho]
  refine ⟨step1, step2, step3, ?_⟩
  intro res flag hres
  by_cases h0 : aRows = []
  · cases hbof : build_or_fallback (sanitize_fts_query q) with
    | none =>
      have := step2 h0 hbof
      rw [this] at hres
      obtain ⟨hr, hf⟩ := Prod.mk.injEq .. ▸ (Except.ok.injEq _ _ ▸ hres)
      constructor
      · intro hft; rw [← hf] at hft; cases hft
      · intro ⟨hrne, _⟩; exact absurd hr.symm hrne
    | some orQuery =>
      cases hOr : f orQuery with
      | error e =>
        subst h0
        simp only [search_sessions] at hres
        rw [hA] at hres
        simp only [ne_eq, not_true_eq_false, if_false, hbof] at hres
        rw [hOr] at hres
        cases hres
      | ok oRows =>
        have := step3 orQuery oRows h0 hbof hOr
        rw [this] at hres
        by_cases ho : oRows = []
        · rw [ho] at hres
          simp only [if_pos rfl] at hres
          obtain ⟨hr, hf⟩ := Prod.mk.injEq .. ▸ (Except.ok.injEq _ _ ▸ hres)
          constructor
          · intro hft; rw [← hf] at hft; cases hft
          · intro ⟨hrne, _⟩; exact absurd hr.symm hrne
        · rw [if_neg ho] at hres
          obtain ⟨hr, hf⟩ := Prod.mk.injEq .. ▸ (Except.ok.injEq _ _ ▸ hres)
          constructor
          · intro _; exact ⟨hr ▸ ho, h0⟩
          · intro _; exact hf.symm
  · have := step1 h0
    rw [this] at hres
    obtain ⟨hr, hf⟩ := Prod.mk.injEq .. ▸ (Except.ok.injEq _ _ ▸ hres)
    constructor
    · intro hft; rw [← hf] at hft; cases hft
    · intro ⟨_, ha⟩; exact absurd ha h0

/-- C1 witness: with an engine returning no rows for every query, a
two-term query yields the empty successful result with the flag false. -/
theorem search_sessions_two_pass_witness :
    search_sessions (fun _ => Except.ok ([] : List SessionRow)) ("hello world".toList) =
      .ok ([], false) := by
  have h := search_sessions_two_pass (fun _ => Except.ok ([] : List SessionRow))
    ("hello world".toList) [] rfl
  have h3 := h.2.2.1 ("hello OR world".toList) [] rfl (by decide) rfl
  simpa using h3

theorem ensure_schema_eq (s : DbState) : ensure_schema s = .ok (ensureResult s) := by
  simp only [ensure_schema, ensureResult, run_migrations, migrate_v0_to_v1,
    set_schema_version, get_schema_version, CURRENT_VERSION]
  by_cases hvt : s.versionTable = true
  · by_cases h : (listMaxInt s.versionRows).getD 0 < 1
    · simp [hvt, h]
    · simp [hvt, h]
  · have hvt' : s.versionTable = false := by
      cases hb : s.versionTable
      · rfl
      · exact absurd hb hvt
    simp [hvt', listMaxInt]

/-- C6: running ensure_schema on the result of a successful run is a no-op
returning the same state with no error, the recorded schema version never
decreases across an open, and a fresh store opened twice has schema
version 1 after both opens. -/
theorem ensure_schema_reopen_noop :
    (∀ s s', ensure_schema s = .ok s' →
      ensure_schema s' = .ok s' ∧
      get_schema_version s ≤ get_schema_version s' ∧
      1 ≤ get_schema_version s') ∧
    (ensure_schema {} = .ok dbV1 ∧ get_schema_version dbV1 = 1 ∧
      ensure_schema dbV1 = .ok dbV1) := by
  constructor
  · intro s s' h
    rw [ensure_schema_eq] at h
    injection h with h'
    subst h'
    by_cases hvt : s.versionTable = true
    · by_cases hv : (listMaxInt s.versionRows).getD 0 < 1
      · have hres : ensureResult s = dbV1 := by
          simp [ensureResult, hvt, hv, dbV1]
        rw [hres]
        refine ⟨by rfl, ?_, by decide⟩
        have h1 : get_schema_version dbV1 = 1 := by rfl
        have h2 : get_schema_version s = (listMaxInt s.versionRows).getD 0 := by
          simp [get_schema_version, hvt]
        rw [h1, h2]
        omega
      · have hres : ensureResult s =
            { s with
              versionTable := true
              sessionsTable := true
              notesTable := true } := by
          simp [ensureResult, hvt, hv]
        rw [hres]
        refine ⟨?_, ?_, ?_⟩
        · rw [ensure_schema_eq]
          congr 1
          simp [ensureResult, hv]
        · simp [get_schema_version, hvt]
        · have h2 : get_schema_version
              { s with
                versionTable := true
                sessionsTable := true
                notesTable := true } = (listMaxInt s.versionRows).getD 0 := by
            simp [get_schema_version]
          rw [h2]
          omega
    · have hvt' : s.versionTable = false := by
        cases hb : s.versionTable
        · rfl
        · exact absurd hb hvt
      have hres : ensureResult s = dbV1 := by
        simp [ensureResult, hvt', listMaxInt, dbV1]
      rw [hres]
      refine ⟨by rfl, ?_, by decide⟩
      have h2 : get_schema_version s = 0 := by simp [get_schema_version, hvt']
      rw [h2]
      decide
  · exact ⟨by rfl, by rfl, by rfl⟩

/-- C6 witness: reopening the state produced by a fresh open raises no
error and leaves the state unchanged at version 1. -/
theorem ensure_schema_reopen_noop_witness :
    ensure_schema dbV1 = .ok dbV1 ∧ get_schema_version dbV1 = 1 := by
  have h := ensure_schema_reopen_noop.1 {} dbV1 (by rfl)
  exact ⟨h.1, by rfl⟩

/-- C7 counterexample: the store already contains session s1 and the
transcript carries session id s1, but the hook input has no session id, so
the existence check is skipped and the re-ingest ends in a uniqueness
violation error instead of a silent success. -/
theorem run_claude_reingest_counterexample :
    session_exists [rowOfMeta ingestMetaS1] ("s1".toList) = true ∧
    run_claude_core (fun _ => none) ("u0".toList) ("/proj".toList)
        { session_id := none } [some ingestLineS1] [rowOfMeta ingestMetaS1]
      = some (.error .uniqueViolation) := by
  exact ⟨by decide, by decide⟩

/-- C7 (amended): re-ingesting is a silent no-op exactly through the hook
session id: when the hook input carries the already-stored session id the
ingest returns success with the store unchanged; when the hook input
carries no session id, a transcript whose session id is already stored and
which has prompts ends in a uniqueness-constraint error. -/
theorem run_claude_reingest_noop :
    (∀ (parseTs : Str → Option Int) (freshId projectDir : Str) (hook : HookInput)
        (lines : List (Option Json)) (store : List SessionRow) (sid : Str),
      hook.session_id = some sid → session_exists store sid = true →
      run_claude_core parseTs freshId projectDir hook lines store = some (.ok store)) ∧
    (∀ (parseTs : Str → Option Int) (freshId projectDir : Str) (hook : HookInput)
        (lines : List (Option Json)) (store : List SessionRow) (meta : SessionMetadata),
      hook.session_id = none → parse_transcript parseTs lines = some meta →
      meta.session_id ≠ [] → session_exists store meta.session_id = true →
      meta.user_prompts ≠ [] →
      run_claude_core parseTs freshId projectDir hook lines store =
        some (.error .uniqueViolation)) := by
  constructor
  · intro parseTs freshId projectDir hook lines store sid hsid hex
    simp [run_claude_core, hsid, hex]
  · intro parseTs freshId projectDir hook lines store meta hsid hparse hidne hex hpne
    simp only [run_claude_core, hsid]
    rw [hparse]
    by_cases hpd : meta.project_dir = []
    · simp [hidne, hpd, hpne, insert_session, hex]
    · simp [hidne, hpd, hpne, insert_session, hex]

/-- C7 witness: re-ingesting the stored session s1 with the hook carrying
id s1 returns success and the unchanged one-row store. -/
theorem run_claude_reingest_noop_witness :
    run_claude_core (fun _ => none) ("u0".toList) ("/proj".toList)
        { session_id := some ("s1".toList) } [some ingestLineS1] [rowOfMeta ingestMetaS1]
      = some (.ok [rowOfMeta ingestMetaS1]) :=
  run_claude_reingest_noop.1 (fun _ => none) ("u0".toList) ("/proj".toList)
    { session_id := some ("s1".toList) } [some ingestLineS1] [rowOfMeta ingestMetaS1]
    ("s1".toList) rfl (by decide)

theorem byteLen_nil : byteLen [] = 0 := rfl

theorem byteLen_cons (c : Char) (s : Str) : byteLen (c :: s) = c.utf8Size + byteLen s := by
  simp [byteLen]

theorem byteLen_append (a b : Str) : byteLen (a ++ b) = byteLen a + byteLen b := by
  simp [byteLen]

theorem byteLen_replicate (n : Nat) (c : Char) :
    byteLen (List.replicate n c) = n * c.utf8Size := by
  induction n with
  | zero => simp [byteLen]
  | succ k ih =>
    rw [List.replicate_succ, byteLen_cons, ih]
    ring

theorem takeBytesExact_replicate_one {c : Char} (h1 : c.utf8Size = 1) (rest : Str) :
    ∀ (k n : Nat),
      takeBytesExact (List.replicate k c ++ rest) (k + n) =
        (takeBytesExact rest n).map (List.replicate k c ++ ·) := by
  intro k
  induction k with
  | zero =>
    intro n
    simp
  | succ k ih =>
    intro n
    have harith : k + 1 + n = (k + n) + 1 := by omega
    rw [List.replicate_succ, harith]
    simp only [List.cons_append, takeBytesExact, h1, List.append_eq]
    rw [if_pos (by omega)]
    have harith2 : k + n + 1 - 1 = k + n := by omega
    rw [harith2, ih n]
    cases takeBytesExact rest n <;> simp

theorem rustTruncate_evilText : rustTruncate evilText 2000 = none := by
  have hlen : byteLen evilText = 2001 := by
    rw [evilText, byteLen_append, byteLen_replicate]
    decide
  rw [rustTruncate, hlen, if_neg (by omega)]
  have h : takeBytesExact evilText 2000 = none := by
    have := takeBytesExact_replicate_one (c := 'a') (by decide) ['é'] 1999 1
    rw [evilText]
    rw [show (2000 : Nat) = 1999 + 1 from rfl, this]
    decide
  rw [h]
  rfl

theorem processLine_simpleUser (m : SessionMetadata) (seen : List Str) (t : Str) :
    processLine m seen (simpleUserLine t) =
      (if t.head? ≠ some '<' ∧ t ≠ [] then
        (rustTruncate t 2000).map
          (fun p => ({m with user_prompts := m.user_prompts ++ [p]}, seen))
      else some (m, seen)) := by
  have hts : getStrField (simpleUserLine t) ("timestamp".toList) = none := rfl
  have hsid : getStrField (simpleUserLine t) ("sessionId".toList) = none := rfl
  have hcwd : getStrField (simpleUserLine t) ("cwd".toList) = none := rfl
  have hbr : getStrField (simpleUserLine t) ("gitBranch".toList) = none := rfl
  have htyp : getStrField (simpleUserLine t) ("type".toList) = some ("user".toList) := rfl
  have hcontent : ((simpleUserLine t).getKey ("message".toList)).bind
      (fun mm => mm.getKey ("content".toList)) = some (Json.str t) := rfl
  simp only [processLine, hts, hsid, hcwd, hbr, htyp, ite_self]
  simp only [if_true]
  simp only [extract_user_message, hcontent, Json.asStr, Json.asArr]
  by_cases hcond : t.head? ≠ some '<' ∧ t ≠ []
  · rw [if_pos hcond, if_pos hcond]
    cases htr : rustTruncate t 2000 <;> simp
  · rw [if_neg hcond, if_neg hcond]
    simp

/-- C4: the claim says every in-stream anomaly is non-fatal and no decoded
content can abort the parse; but on a single well-formed user line whose
content is 1999 one-byte characters followed by one two-byte character,
the 2000-byte truncation slice falls inside a character and the parser
panics: the model aborts (returns none) instead of returning metadata. -/
theorem evilText_ne_nil : evilText ≠ [] := by
  rw [evilText]
  intro h
  have hlen := congrArg List.length h
  rw [List.length_append, List.length_replicate] at hlen
  simp only [List.length_nil, List.length_singleton] at hlen
  omega

theorem evilText_head : evilText.head? = some 'a' := by
  rw [evilText, show (1999 : Nat) = 1998 + 1 from rfl, List.replicate_succ]
  rfl

theorem parse_transcript_panics_on_char_boundary :
    parse_transcript (fun _ => none) [some (simpleUserLine evilText)] = none ∧
    evilText ≠ [] ∧ evilText.head? ≠ some '<' := by
  have hne : evilText ≠ [] := evilText_ne_nil
  have hhd : evilText.head? ≠ some '<' := by rw [evilText_head]; decide
  refine ⟨?_, hne, hhd⟩
  simp only [parse_transcript, foldLines]
  rw [processLine_simpleUser]
  rw [if_pos ⟨hhd, hne⟩]
  rw [rustTruncate_evilText]
  rfl

theorem takeBytesExact_replicate_add {c : Char} (hsz : 1 ≤ c.utf8Size) (rest : Str) :
    ∀ (k n : Nat),
      takeBytesExact (List.replicate k c ++ rest) (k * c.utf8Size + n) =
        (takeBytesExact rest n).map (List.replicate k c ++ ·) := by
  intro k
  induction k with
  | zero =>
    intro n
    simp
  | succ k ih =>
    intro n
    have harith : (k + 1) * c.utf8Size + n = (k * c.utf8Size + c.utf8Size + n - 1) + 1 := by
      rw [Nat.succ_mul]
      omega
    rw [List.replicate_succ, harith]
    simp only [List.cons_append, takeBytesExact, List.append_eq]
    rw [if_pos (by omega)]
    have harith2 : k * c.utf8Size + c.utf8Size + n - 1 + 1 - c.utf8Size = k * c.utf8Size + n := by
      omega
    rw [harith2, ih n]
    cases takeBytesExact rest n <;> simp

theorem takeBytesExact_byteLen :
    ∀ (s : Str) (n : Nat) (pre : Str), takeBytesExact s n = some pre → byteLen pre = n := by
  intro s
  induction s with
  | nil =>
    intro n pre h
    cases n with
    | zero =>
      simp only [takeBytesExact] at h
      injection h with h'
      subst h'
      rfl
    | succ k => cases h
  | cons c rest ih =>
    intro n pre h
    cases n with
    | zero =>
      simp only [takeBytesExact] at h
      injection h with h'
      subst h'
      rfl
    | succ k =>
      simp only [takeBytesExact] at h
      by_cases hc : c.utf8Size ≤ k + 1
      · rw [if_pos hc] at h
        cases htk : takeBytesExact rest (k + 1 - c.utf8Size) with
        | none => rw [htk] at h; cases h
        | some pre' =>
          rw [htk] at h
          simp only [Option.map_some'] at h
          injection h with h'
          subst h'
          rw [byteLen_cons, ih _ _ htk]
          omega
      · rw [if_neg hc] at h
        cases h

theorem rustTruncate_rep1001 :
    rustTruncate (List.replicate 1001 'é') 2000 =
      some (List.replicate 1000 'é' ++ "...".toList) := by
  have hsz : ('é').utf8Size = 2 := by decide
  have hlen : byteLen (List.replicate 1001 'é') = 2002 := by
    rw [byteLen_replicate, hsz]
  rw [rustTruncate, hlen, if_neg (by omega)]
  have hsplit : List.replicate 1001 'é' = List.replicate 1000 'é' ++ List.replicate 1 'é' := by
    rw [← List.replicate_add]
  rw [hsplit]
  have htk := takeBytesExact_replicate_add (c := 'é') (by omega) (List.replicate 1 'é') 1000 0
  rw [hsz] at htk
  rw [show (2000 : Nat) = 1000 * 2 + 0 from rfl, htk]
  have h0 : takeBytesExact (List.replicate 1 'é') 0 = some [] := rfl
  rw [h0]
  simp only [Option.map_some', List.append_nil]

theorem foldLines_simpleUsers (texts : List Str) :
    ∀ (m : SessionMetadata) (seen : List Str),
      foldLines m seen (texts.map (fun t => some (simpleUserLine t))) =
        ((texts.filter (fun t => decide (t.head? ≠ some '<' ∧ t ≠ []))).mapM
            (fun t => rustTruncate t 2000)).map
          (fun ps => {m with user_prompts := m.user_prompts ++ ps}) := by
  induction texts with
  | nil =>
    intro m seen
    simp only [List.map_nil, foldLines, List.filter_nil, List.mapM_nil,
      Option.pure_def, Option.map_some', List.append_nil]
  | cons t rest ih =>
    intro m seen
    simp only [List.map_cons, foldLines]
    rw [processLine_simpleUser]
    by_cases hcond : t.head? ≠ some '<' ∧ t ≠ []
    · rw [if_pos hcond]
      rw [List.filter_cons_of_pos (by simpa using hcond), List.mapM_cons]
      cases htr : rustTruncate t 2000 with
      | none => simp [htr]
      | some p =>
        simp only [htr, Option.map_some']
        rw [ih]
        cases hmm2 : (rest.filter (fun t => decide (t.head? ≠ some '<' ∧ t ≠ []))).mapM
            (fun t => rustTruncate t 2000) with
        | none => simp [hmm2]
        | some ps => simp [hmm2]
    · rw [if_neg hcond]
      rw [List.filter_cons_of_neg (by simpa using hcond)]
      exact ih m seen

theorem copilotTurnsFold_eq (turns : List CopilotTurn) :
    ∀ (m : SessionMetadata),
      copilotTurnsFold turns m =
        (((turns.filter (fun turn =>
              decide (turn.role = "user".toList ∧ trimBoth turn.content ≠ []))).map
            (fun turn => turn.content)).mapM (fun t => rustTruncate t 2000)).map
          (fun ps => {m with user_prompts := m.user_prompts ++ ps}) := by
  induction turns with
  | nil =>
    intro m
    simp only [copilotTurnsFold, List.filter_nil, List.map_nil, List.mapM_nil,
      Option.pure_def, Option.map_some', List.append_nil]
  | cons turn rest ih =>
    intro m
    simp only [copilotTurnsFold]
    by_cases hcond : turn.role = "user".toList ∧ trimBoth turn.content ≠ []
    · rw [if_pos hcond]
      rw [List.filter_cons_of_pos (by simpa using hcond), List.map_cons, List.mapM_cons]
      cases htr : rustTruncate turn.content 2000 with
      | none => simp [htr]
      | some p =>
        simp only [htr]
        rw [ih]
        cases hmm2 : ((rest.filter (fun turn =>
              decide (turn.role = "user".toList ∧ trimBoth turn.content ≠ []))).map
            (fun turn => turn.content)).mapM (fun t => rustTruncate t 2000) with
        | none => simp [hmm2]
        | some ps => simp [hmm2]
    · rw [if_neg hcond]
      rw [List.filter_cons_of_neg (by simpa using hcond)]
      exact ih m

theorem dropWhile_replicate_of_neg {p : Char → Bool} {c : Char} (h : p c = false) (n : Nat) :
    List.dropWhile p (List.replicate n c) = List.replicate n c := by
  cases n with
  | zero => rfl
  | succ k =>
    rw [List.replicate_succ, List.dropWhile_cons, h]
    simp

theorem trimBoth_replicate {c : Char} (h : isWsChar c = false) (n : Nat) :
    trimBoth (List.replicate n c) = List.replicate n c := by
  unfold trimBoth trimStart
  rw [dropWhile_replicate_of_neg h, List.reverse_replicate,
    dropWhile_replicate_of_neg h, List.reverse_replicate]

theorem replicate_1001_ne_nil : List.replicate 1001 'é' ≠ [] := by
  intro h
  have hl := congrArg List.length h
  rw [List.length_replicate] at hl
  simp at hl

/-- C5 counterexample: the turn content has 1001 characters, not more than
2000, so by the claim the prompt should be the content unchanged with no
ellipsis; but the code truncates at 2000 bytes, so the stored prompt is
1000 characters plus an ellipsis and differs from the content. -/
theorem prompt_truncation_counterexample :
    (parse_copilot_json [] copilotDoc1001).map SessionMetadata.user_prompts =
      some [List.replicate 1000 'é' ++ "...".toList] ∧
    (List.replicate 1001 'é').length ≤ 2000 ∧
    List.replicate 1000 'é' ++ "...".toList ≠ List.replicate 1001 'é' := by
  refine ⟨?_, ?_, ?_⟩
  · have htrim : trimBoth (List.replicate 1001 'é') = List.replicate 1001 'é' :=
      trimBoth_replicate (by decide) 1001
    have hcondp : (({ role := "user".toList, content := List.replicate 1001 'é' } :
          CopilotTurn)).role = "user".toList ∧
        trimBoth (({ role := "user".toList, content := List.replicate 1001 'é' } :
          CopilotTurn)).content ≠ [] := by
      refine ⟨rfl, ?_⟩
      rw [show ({ role := "user".toList, content := List.replicate 1001 'é' } :
          CopilotTurn).content = List.replicate 1001 'é' from rfl, htrim]
      exact replicate_1001_ne_nil
    have hstep : parse_copilot_json [] copilotDoc1001 =
        copilotTurnsFold [{ role := "user".toList, content := List.replicate 1001 'é' }] {} := rfl
    rw [hstep, copilotTurnsFold_eq]
    rw [@List.filter_cons_of_pos CopilotTurn
        (fun turn => decide (turn.role = "user".toList ∧ trimBoth turn.content ≠ []))
        ({ role := "user".toList, content := List.replicate 1001 'é' }) []
        (decide_eq_true hcondp)]
    rw [List.filter_nil, List.map_cons, List.map_nil, List.mapM_cons]
    rw [show ({ role := "user".toList, content := List.replicate 1001 'é' } :
      CopilotTurn).content = List.replicate 1001 'é' from rfl]
    rw [rustTruncate_rep1001, List.mapM_nil]
    simp only [Option.pure_def, Option.bind_eq_bind, Option.bind_some, Option.map_some']
    rfl
  · rw [List.length_replicate]
    omega
  · intro h
    have hl := congrArg List.length h
    rw [List.length_append, List.length_replicate, List.length_replicate] at hl
    have h3 : ("...".toList).length = 3 := rfl
    rw [h3] at hl
    omega

theorem compute_duration_user_prompts (parseTs : Str → Option Int) (m : SessionMetadata) :
    (compute_duration parseTs m).user_prompts = m.user_prompts := by
  unfold compute_duration
  cases hf : m.first_timestamp with
  | none => rfl
  | some f =>
    cases hl : m.last_timestamp with
    | none => rfl
    | some l =>
      dsimp only
      cases parseTs f <;> cases parseTs l <;> rfl

theorem mapM_option_length {α β : Type} (f : α → Option β) :
    ∀ (xs : List α) (ys : List β), xs.mapM f = some ys → ys.length = xs.length := by
  intro xs
  induction xs with
  | nil =>
    intro ys h
    rw [List.mapM_nil] at h
    injection h with h'
    subst h'
    rfl
  | cons x rest ih =>
    intro ys h
    rw [List.mapM_cons] at h
    cases hf : f x with
    | none => rw [hf] at h; cases h
    | some b =>
      cases hm : rest.mapM f with
      | none => rw [hf, hm] at h; cases h
      | some bs =>
        rw [hf, hm] at h
        simp only [Option.pure_def, Option.bind_eq_bind, Option.bind_some] at h
        injection h with h'
        subst h'
        simp [ih bs hm]

theorem mapM_option_append {α β : Type} (f : α → Option β) :
    ∀ (xs ys : List α),
      (xs ++ ys).mapM f =
        (xs.mapM f).bind (fun as => (ys.mapM f).map (fun bs => as ++ bs)) := by
  intro xs
  induction xs with
  | nil =>
    intro ys
    rw [List.nil_append, List.mapM_nil]
    cases h : ys.mapM f with
    | none => rfl
    | some bs => rfl
  | cons x rest ih =>
    intro ys
    rw [List.cons_append, List.mapM_cons, List.mapM_cons, ih ys]
    cases hf : f x with
    | none =>
      simp only [Option.pure_def, Option.bind_eq_bind, Option.none_bind]
    | some b =>
      cases h1 : rest.mapM f with
      | none =>
        simp only [Option.pure_def, Option.bind_eq_bind, Option.some_bind,
          Option.none_bind]
      | some as =>
        cases h2 : ys.mapM f with
        | none =>
          simp only [Option.pure_def, Option.bind_eq_bind, Option.some_bind,
            Option.map_none', Option.none_bind]
        | some bs =>
          simp only [Option.pure_def, Option.bind_eq_bind, Option.some_bind,
            Option.map_some', List.cons_append]

theorem collectArrPrompts_eq :
    ∀ (items : List Json),
      collectArrPrompts items =
        (items.filterMap arrItemText).mapM (fun t => rustTruncate t 2000) := by
  intro items
  induction items with
  | nil => rfl
  | cons item rest ih =>
    simp only [collectArrPrompts]
    by_cases h1 : (item.getKey ("type".toList)).bind Json.asStr = some ("tool_result".toList)
    · have hai : arrItemText item = none := by rw [arrItemText, if_pos h1]
      rw [if_pos h1, List.filterMap_cons, hai, ih]
    · rw [if_neg h1]
      cases ht : (item.getKey ("text".toList)).bind Json.asStr with
      | none =>
        have hai : arrItemText item = none := by rw [arrItemText, if_neg h1, ht]
        rw [List.filterMap_cons, hai, ih]
      | some text =>
        dsimp only
        by_cases hacc : text.head? ≠ some '<' ∧ text ≠ []
        · have hai : arrItemText item = some text := by
            rw [arrItemText, if_neg h1, ht]
            dsimp only
            rw [if_pos hacc]
          rw [if_pos hacc, List.filterMap_cons, hai]
          dsimp only
          rw [List.mapM_cons]
          cases htr : rustTruncate text 2000 with
          | none => rfl
          | some p =>
            rw [ih]
            cases hmm : (rest.filterMap arrItemText).mapM (fun t => rustTruncate t 2000) with
            | none => rfl
            | some ps => rfl
        · have hai : arrItemText item = none := by
            rw [arrItemText, if_neg h1, ht]
            dsimp only
            rw [if_neg hacc]
          rw [if_neg hacc, List.filterMap_cons, hai, ih]

theorem lineUserTexts_user (v : Json)
    (ht : getStrField v ("type".toList) = some ("user".toList)) :
    (lineUserTexts (some v)).mapM (fun t => rustTruncate t 2000) =
      extract_user_message v := by
  rw [lineUserTexts, if_pos ht, extract_user_message]
  cases hc : (v.getKey ("message".toList)).bind (fun m => m.getKey ("content".toList)) with
  | none => rfl
  | some content =>
    dsimp only
    rw [mapM_option_append]
    cases hs : content.asStr with
    | none =>
      cases ha : content.asArr with
      | none => rfl
      | some items =>
        dsimp only
        rw [collectArrPrompts_eq]
        cases hmm : (items.filterMap arrItemText).mapM (fun t => rustTruncate t 2000) with
        | none => rfl
        | some ps => rfl
    | some text =>
      dsimp only
      by_cases hacc : text.head? ≠ some '<' ∧ text ≠ []
      · rw [if_pos hacc, if_pos hacc, List.mapM_cons]
        cases htr : rustTruncate text 2000 with
        | none => rfl
        | some p =>
          cases ha : content.asArr with
          | none => rfl
          | some items =>
            dsimp only
            rw [collectArrPrompts_eq]
            cases hmm : (items.filterMap arrItemText).mapM (fun t => rustTruncate t 2000) with
            | none => rfl
            | some ps => rfl
      · rw [if_neg hacc, if_neg hacc]
        cases ha : content.asArr with
        | none => rfl
        | some items =>
          dsimp only
          rw [collectArrPrompts_eq]
          cases hmm : (items.filterMap arrItemText).mapM (fun t => rustTruncate t 2000) with
          | none => rfl
          | some ps => rfl

theorem findCharIdx_append (q : Char) :
    ∀ (body tail : Str), q ∉ body →
      findCharIdx (body ++ q :: tail) q = some body.length := by
  intro body
  induction body with
  | nil =>
    intro tail _
    simp [findCharIdx]
  | cons c rest ih =>
    intro tail h
    have hc : ¬ c = q := by
      intro he
      exact h (by simp [he])
    simp only [List.cons_append, findCharIdx, List.append_eq]
    rw [if_neg hc, ih tail (fun hq => h (List.mem_cons_of_mem _ hq))]
    rfl

/-- C9 counterexample: after the -m flag the remainder is 51 two-byte
characters (102 bytes, 51 characters, no quote): a 100-character snippet
would be the whole remainder, but the code truncates at 100 bytes and
returns 50 characters plus an ellipsis. -/
theorem commit_snippet_counterexample :
    extract_commit_message ("git commit -m ".toList ++ List.replicate 51 'é') =
      some (some (List.replicate 50 'é' ++ "...".toList)) ∧
    (List.replicate 51 'é').length ≤ 100 ∧
    List.replicate 50 'é' ++ "...".toList ≠ List.replicate 51 'é' := by
  refine ⟨by decide, by decide, by decide⟩

/-- C9 (amended): when the first -m flag is followed (after trimming) by a
quoted string, extract_commit_message returns the quoted contents
verbatim; when no quote follows, it returns the remainder truncated at 100
BYTES (with ellipsis), not 100 characters; and the documented example
holds. -/
theorem extract_commit_message_matches_claim :
    (∀ (cmd : Str) (k : Nat) (q : Char) (body tail : Str),
      findSub cmd ("-m ".toList) = some k →
      (q = '"' ∨ q = '\'') → q ∉ body →
      trimBoth (cmd.drop (k + 3)) = q :: (body ++ q :: tail) →
      extract_commit_message cmd = some (some body)) ∧
    (∀ (cmd : Str) (k : Nat),
      findSub cmd ("-m ".toList) = some k →
      (∀ c, (trimBoth (cmd.drop (k + 3))).head? = some c → ¬ c = '"' ∧ ¬ c = '\'') →
      extract_commit_message cmd =
        (rustTruncate (trimBoth (cmd.drop (k + 3))) 100).map some) ∧
    extract_commit_message ("git commit -m \"fix: resolve bug\"".toList) =
      some (some ("fix: resolve bug".toList)) := by
  refine ⟨?_, ?_, by decide⟩
  · intro cmd k q body tail hfind hq hnb htrim
    simp only [extract_commit_message, hfind, htrim]
    rw [if_pos hq, findCharIdx_append q body tail hnb]
    dsimp only
    rw [List.take_left]
  · intro cmd k hfind hhead
    simp only [extract_commit_message, hfind]
    cases hrest : trimBoth (cmd.drop (k + 3)) with
    | nil => rfl
    | cons c rest' =>
      have hc := hhead c (by rw [hrest]; rfl)
      dsimp only
      rw [if_neg (by
        intro hor
        rcases hor with h | h
        · exact hc.1 h
        · exact hc.2 h)]

/-- C9 witness: a single-quoted commit message is extracted verbatim. -/
theorem extract_commit_message_matches_claim_witness :
    extract_commit_message ("git commit -m 'ok'".toList) = some (some ("ok".toList)) :=
  extract_commit_message_matches_claim.1 ("git commit -m 'ok'".toList) 11 '\''
    ("ok".toList) [] (by decide) (Or.inr rfl) (by decide) (by decide)

theorem processLine_decomp (m : SessionMetadata) (seen : List Str) (v : Json) :
    processLine m seen v =
      (match getStrField v ("type".toList) with
       | some t =>
         if t = "user".toList then
           match extract_user_message v with
           | none => none
           | some ps =>
             some ({mergeIds m v with
               user_prompts := (mergeIds m v).user_prompts ++ ps}, seen)
         else if t = "assistant".toList then extract_assistant_message v (mergeIds m v) seen
         else some (mergeIds m v, seen)
       | none => some (mergeIds m v, seen)) := rfl

theorem mergeIds_fields (m : SessionMetadata) (v : Json) :
    ((mergeIds m v).session_id = if m.session_id = [] then
        (match getStrField v ("sessionId".toList) with
         | some s => s
         | none => m.session_id)
      else m.session_id) ∧
    ((mergeIds m v).project_dir = if m.project_dir = [] then
        (match getStrField v ("cwd".toList) with
         | some s => s
         | none => m.project_dir)
      else m.project_dir) ∧
    ((mergeIds m v).git_branch = (match m.git_branch with
      | some b => some b
      | none => getStrField v ("gitBranch".toList))) ∧
    ((mergeIds m v).first_timestamp = (match m.first_timestamp with
      | some f => some f
      | none => getStrField v ("timestamp".toList))) ∧
    ((mergeIds m v).last_timestamp = (match getStrField v ("timestamp".toList) with
      | some ts => some ts
      | none => m.last_timestamp)) ∧
    ((mergeIds m v).duration_seconds = m.duration_seconds) ∧
    ((mergeIds m v).user_prompts = m.user_prompts) := by
  unfold mergeIds
  cases hts : getStrField v ("timestamp".toList) <;>
    cases hsid : getStrField v ("sessionId".toList) <;>
      cases hcwd : getStrField v ("cwd".toList) <;>
        cases hbr : getStrField v ("gitBranch".toList) <;>
          refine ⟨?_, ?_, ?_, ?_, ?_, ?_, ?_⟩ <;>
            simp [apply_ite SessionMetadata.session_id,
              apply_ite SessionMetadata.project_dir,
              apply_ite SessionMetadata.git_branch,
              apply_ite SessionMetadata.first_timestamp,
              apply_ite SessionMetadata.last_timestamp,
              apply_ite SessionMetadata.duration_seconds,
              apply_ite SessionMetadata.user_prompts] <;>
            (try cases hfst : m.first_timestamp) <;>
              (try cases hgb : m.git_branch) <;> simp_all

theorem sameIdFields_refl (a : SessionMetadata) : sameIdFields a a :=
  ⟨rfl, rfl, rfl, rfl, rfl, rfl, rfl⟩

theorem sameIdFields_trans {a b c : SessionMetadata}
    (h1 : sameIdFields a b) (h2 : sameIdFields b c) : sameIdFields a c := by
  obtain ⟨x1, x2, x3, x4, x5, x6, x7⟩ := h1
  obtain ⟨y1, y2, y3, y4, y5, y6, y7⟩ := h2
  exact ⟨x1.trans y1, x2.trans y2, x3.trans y3, x4.trans y4,
    x5.trans y5, x6.trans y6, x7.trans y7⟩

theorem applyUsage_stable (m : SessionMetadata) (u : Json) :
    sameIdFields (applyUsage m u) m := by
  unfold applyUsage sameIdFields
  cases (u.getKey ("input_tokens".toList)).bind Json.asU64 <;>
    cases (u.getKey ("output_tokens".toList)).bind Json.asU64 <;>
      cases (u.getKey ("cache_creation_input_tokens".toList)).bind Json.asU64 <;>
        cases (u.getKey ("cache_read_input_tokens".toList)).bind Json.asU64 <;>
          exact ⟨rfl, rfl, rfl, rfl, rfl, rfl, rfl⟩

theorem processToolItems_stable :
    ∀ (items : List Json) (m : SessionMetadata) (seen : List Str)
      (m' : SessionMetadata) (s' : List Str),
      processToolItems items m seen = some (m', s') → sameIdFields m' m := by
  intro items
  induction items with
  | nil =>
    intro m seen m' s' h
    simp only [processToolItems] at h
    injection h with h'
    rw [Prod.mk.injEq] at h'
    rw [← h'.1]
    exact sameIdFields_refl m
  | cons item rest ih =>
    intro m seen m' s' h
    simp only [processToolItems] at h
    by_cases h1 : (item.getKey ("type".toList)).bind Json.asStr ≠ some ("tool_use".toList)
    · rw [if_pos h1] at h
      exact ih _ _ _ _ h
    · rw [if_neg h1] at h
      cases hname : (item.getKey ("name".toList)).bind Json.asStr with
      | none =>
        rw [hname] at h
        exact ih _ _ _ _ h
      | some toolName =>
        rw [hname] at h
        dsimp only at h
        by_cases hw : toolName = "Write".toList ∨ toolName = "Edit".toList
        · rw [if_pos hw] at h
          cases hfp : ((item.getKey ("input".toList)).bind
              (fun i => i.getKey ("file_path".toList))).bind Json.asStr with
          | none =>
            rw [hfp] at h
            exact sameIdFields_trans (ih _ _ _ _ h) ⟨rfl, rfl, rfl, rfl, rfl, rfl, rfl⟩
          | some p =>
            rw [hfp] at h
            exact sameIdFields_trans (ih _ _ _ _ h) ⟨rfl, rfl, rfl, rfl, rfl, rfl, rfl⟩
        · rw [if_neg hw] at h
          by_cases hr : toolName = "Read".toList
          · rw [if_pos hr] at h
            cases hfp : ((item.getKey ("input".toList)).bind
                (fun i => i.getKey ("file_path".toList))).bind Json.asStr with
            | none =>
              rw [hfp] at h
              exact sameIdFields_trans (ih _ _ _ _ h) ⟨rfl, rfl, rfl, rfl, rfl, rfl, rfl⟩
            | some p =>
              rw [hfp] at h
              exact sameIdFields_trans (ih _ _ _ _ h) ⟨rfl, rfl, rfl, rfl, rfl, rfl, rfl⟩
          · rw [if_neg hr] at h
            by_cases hb : toolName = "Bash".toList
            · rw [if_pos hb] at h
              cases hcmd : ((item.getKey ("input".toList)).bind
                  (fun i => i.getKey ("command".toList))).bind Json.asStr with
              | none =>
                rw [hcmd] at h
                exact sameIdFields_trans (ih _ _ _ _ h) ⟨rfl, rfl, rfl, rfl, rfl, rfl, rfl⟩
              | some cmd =>
                rw [hcmd] at h
                dsimp only at h
                cases htr : rustTruncate cmd 200 with
                | none => rw [htr] at h; cases h
                | some truncated =>
                  rw [htr] at h
                  dsimp only at h
                  by_cases hgc : (findSub cmd ("git commit".toList)).isSome = true
                  · rw [if_pos hgc] at h
                    cases hec : extract_commit_message cmd with
                    | none => rw [hec] at h; cases h
                    | some msgOpt =>
                      rw [hec] at h
                      cases msgOpt with
                      | none =>
                        exact sameIdFields_trans (ih _ _ _ _ h)
                          ⟨rfl, rfl, rfl, rfl, rfl, rfl, rfl⟩
                      | some msg =>
                        exact sameIdFields_trans (ih _ _ _ _ h)
                          ⟨rfl, rfl, rfl, rfl, rfl, rfl, rfl⟩
                  · rw [if_neg hgc] at h
                    exact sameIdFields_trans (ih _ _ _ _ h)
                      ⟨rfl, rfl, rfl, rfl, rfl, rfl, rfl⟩
            · rw [if_neg hb] at h
              exact sameIdFields_trans (ih _ _ _ _ h)
                ⟨rfl, rfl, rfl, rfl, rfl, rfl, rfl⟩

theorem extract_assistant_stable (v : Json) (m : SessionMetadata) (seen : List Str)
    (m' : SessionMetadata) (s' : List Str)
    (h : extract_assistant_message v m seen = some (m', s')) : sameIdFields m' m := by
  simp only [extract_assistant_message] at h
  cases hmsg : v.getKey ("message".toList) with
  | none =>
    rw [hmsg] at h
    injection h with h'
    rw [Prod.mk.injEq] at h'
    rw [← h'.1]
    exact sameIdFields_refl m
  | some message =>
    rw [hmsg] at h
    dsimp only at h
    have hA : sameIdFields (if m.model = none then
        (match getStrField message ("model".toList) with
         | some mo => {m with model := some mo}
         | none => m) else m) m := by
      by_cases hmod : m.model = none
      · rw [if_pos hmod]
        cases getStrField message ("model".toList) with
        | none => exact sameIdFields_refl m
        | some mo => exact ⟨rfl, rfl, rfl, rfl, rfl, rfl, rfl⟩
      · rw [if_neg hmod]
        exact sameIdFields_refl m
    generalize hga : (if m.model = none then
        (match getStrField message ("model".toList) with
         | some mo => {m with model := some mo}
         | none => m) else m) = mA at h hA
    have hB : sameIdFields (match message.getKey ("usage".toList) with
        | some usage => applyUsage mA usage
        | none => mA) mA := by
      cases message.getKey ("usage".toList) with
      | none => exact sameIdFields_refl mA
      | some u => exact applyUsage_stable mA u
    generalize hgb : (match message.getKey ("usage".toList) with
        | some usage => applyUsage mA usage
        | none => mA) = mB at h hB
    cases hca : (message.getKey ("content".toList)).bind Json.asArr with
    | none =>
      rw [hca] at h
      injection h with h'
      rw [Prod.mk.injEq] at h'
      rw [← h'.1]
      exact sameIdFields_trans hB hA
    | some content =>
      rw [hca] at h
      exact sameIdFields_trans
        (sameIdFields_trans (processToolItems_stable content mB seen m' s' h) hB) hA

theorem first_nonempty_cons_ne (s : Str) (xs : List Str) (h : ¬ s = []) :
    first_nonempty (s :: xs) = s := by
  simp [first_nonempty, List.filter_cons, h]

theorem first_nonempty_cons_nil (xs : List Str) :
    first_nonempty (([] : Str) :: xs) = first_nonempty xs := by
  simp [first_nonempty, List.filter_cons]

theorem getLastStr_cons (a : Str) (l : List Str) :
    (a :: l).getLast? = (match l.getLast? with
      | some x => some x
      | none => some a) := by
  cases l with
  | nil => rfl
  | cons b l' =>
    rw [List.getLast?_cons_cons]
    cases hgl : (b :: l').getLast? with
    | none =>
      rw [List.getLast?_eq_none_iff] at hgl
      cases hgl
    | some x => rfl

theorem processLine_fields (m : SessionMetadata) (seen : List Str) (v : Json)
    (m1 : SessionMetadata) (s1 : List Str) (h : processLine m seen v = some (m1, s1)) :
    m1.session_id = (mergeIds m v).session_id ∧
    m1.project_dir = (mergeIds m v).project_dir ∧
    m1.git_branch = (mergeIds m v).git_branch ∧
    m1.first_timestamp = (mergeIds m v).first_timestamp ∧
    m1.last_timestamp = (mergeIds m v).last_timestamp ∧
    m1.duration_seconds = (mergeIds m v).duration_seconds := by
  rw [processLine_decomp] at h
  cases htt : getStrField v ("type".toList) with
  | none =>
    rw [htt] at h
    injection h with h'
    rw [Prod.mk.injEq] at h'
    rw [← h'.1]
    exact ⟨rfl, rfl, rfl, rfl, rfl, rfl⟩
  | some t =>
    rw [htt] at h
    dsimp only at h
    by_cases hu : t = "user".toList
    · rw [if_pos hu] at h
      cases he : extract_user_message v with
      | none => rw [he] at h; cases h
      | some ps =>
        rw [he] at h
        injection h with h'
        rw [Prod.mk.injEq] at h'
        rw [← h'.1]
        exact ⟨rfl, rfl, rfl, rfl, rfl, rfl⟩
    · rw [if_neg hu] at h
      by_cases ha : t = "assistant".toList
      · rw [if_pos ha] at h
        have hs := extract_assistant_stable v (mergeIds m v) seen m1 s1 h
        exact ⟨hs.1, hs.2.1, hs.2.2.1, hs.2.2.2.1, hs.2.2.2.2.1, hs.2.2.2.2.2.1⟩
      · rw [if_neg ha] at h
        injection h with h'
        rw [Prod.mk.injEq] at h'
        rw [← h'.1]
        exact ⟨rfl, rfl, rfl, rfl, rfl, rfl⟩

theorem foldLines_first_wins :
    ∀ (lines : List (Option Json)) (m : SessionMetadata) (seen : List Str)
      (m' : SessionMetadata), foldLines m seen lines = some m' →
      (m'.session_id =
        if m.session_id = [] then first_nonempty (sidsOf lines) else m.session_id) ∧
      (m'.project_dir =
        if m.project_dir = [] then first_nonempty (cwdsOf lines) else m.project_dir) ∧
      (m'.git_branch = (match m.git_branch with
        | some b => some b
        | none => (branchesOf lines).head?)) ∧
      (m'.first_timestamp = (match m.first_timestamp with
        | some f => some f
        | none => (tssOf lines).head?)) ∧
      (m'.last_timestamp = (match (tssOf lines).getLast? with
        | some t => some t
        | none => m.last_timestamp)) ∧
      (m'.duration_seconds = m.duration_seconds) := by
  intro lines
  induction lines with
  | nil =>
    intro m seen m' h
    simp only [foldLines] at h
    injection h with h'
    subst h'
    refine ⟨?_, ?_, ?_, ?_, rfl, rfl⟩
    · by_cases hs : m.session_id = []
      · simp [hs, first_nonempty, sidsOf]
      · simp [hs]
    · by_cases hs : m.project_dir = []
      · simp [hs, first_nonempty, cwdsOf]
      · simp [hs]
    · cases m.git_branch <;> rfl
    · cases m.first_timestamp <;> rfl
  | cons l rest ih =>
    intro m seen m' h
    cases l with
    | none =>
      simp only [foldLines] at h
      exact ih m seen m' h
    | some v =>
      simp only [foldLines] at h
      cases hp : processLine m seen v with
      | none => rw [hp] at h; cases h
      | some pair =>
        obtain ⟨m1, s1⟩ := pair
        rw [hp] at h
        dsimp only at h
        obtain ⟨i1, i2, i3, i4, i5, i6⟩ := ih m1 s1 m' h
        obtain ⟨f1, f2, f3, f4, f5, f6⟩ := processLine_fields m seen v m1 s1 hp
        obtain ⟨g1, g2, g3, g4, g5, g6, _⟩ := mergeIds_fields m v
        have hsid1 : m1.session_id = if m.session_id = [] then
            (match getStrField v ("sessionId".toList) with
             | some s => s
             | none => m.session_id)
          else m.session_id := f1.trans g1
        have hpd1 : m1.project_dir = if m.project_dir = [] then
            (match getStrField v ("cwd".toList) with
             | some s => s
             | none => m.project_dir)
          else m.project_dir := f2.trans g2
        have hgb1 : m1.git_branch = (match m.git_branch with
          | some b => some b
          | none => getStrField v ("gitBranch".toList)) := f3.trans g3
        have hft1 : m1.first_timestamp = (match m.first_timestamp with
          | some f => some f
          | none => getStrField v ("timestamp".toList)) := f4.trans g4
        have hlt1 : m1.last_timestamp = (match getStrField v ("timestamp".toList) with
          | some ts => some ts
          | none => m.last_timestamp) := f5.trans g5
        have hsids : sidsOf (some v :: rest) =
            (match getStrField v ("sessionId".toList) with
             | some s => s :: sidsOf rest
             | none => sidsOf rest) := by
          simp only [sidsOf, List.filterMap_cons, Option.some_bind]
          cases getStrField v ("sessionId".toList) <;> rfl
        have hcwds : cwdsOf (some v :: rest) =
            (match getStrField v ("cwd".toList) with
             | some s => s :: cwdsOf rest
             | none => cwdsOf rest) := by
          simp only [cwdsOf, List.filterMap_cons, Option.some_bind]
          cases getStrField v ("cwd".toList) <;> rfl
        have hbrs : branchesOf (some v :: rest) =
            (match getStrField v ("gitBranch".toList) with
             | some s => s :: branchesOf rest
             | none => branchesOf rest) := by
          simp only [branchesOf, List.filterMap_cons, Option.some_bind]
          cases getStrField v ("gitBranch".toList) <;> rfl
        have htss : tssOf (some v :: rest) =
            (match getStrField v ("timestamp".toList) with
             | some s => s :: tssOf rest
             | none => tssOf rest) := by
          simp only [tssOf, List.filterMap_cons, Option.some_bind]
          cases getStrField v ("timestamp".toList) <;> rfl
        refine ⟨?_, ?_, ?_, ?_, ?_, i6.trans (f6.trans g6)⟩
        · rw [i1, hsid1, hsids]
          by_cases hs : m.session_id = []
          · rw [if_pos hs]
            cases hf : getStrField v ("sessionId".toList) with
            | none => simp [hs]
            | some s =>
              by_cases hsn : s = []
              · subst hsn
                simp [hs, first_nonempty_cons_nil]
              · simp [hsn, hs, first_nonempty_cons_ne s _ hsn]
          · rw [if_neg hs]
            simp [hs]
        · rw [i2, hpd1, hcwds]
          by_cases hs : m.project_dir = []
          · rw [if_pos hs]
            cases hf : getStrField v ("cwd".toList) with
            | none => simp [hs]
            | some s =>
              by_cases hsn : s = []
              · subst hsn
                simp [hs, first_nonempty_cons_nil]
              · simp [hsn, hs, first_nonempty_cons_ne s _ hsn]
          · rw [if_neg hs]
            simp [hs]
        · rw [i3, hgb1, hbrs]
          cases hgb : m.git_branch with
          | some b => rfl
          | none =>
            cases hf : getStrField v ("gitBranch".toList) with
            | none => rfl
            | some b => rfl
        · rw [i4, hft1, htss]
          cases hft : m.first_timestamp with
          | some f => rfl
          | none =>
            cases hf : getStrField v ("timestamp".toList) with
            | none => rfl
            | some ts => rfl
        · rw [i5, hlt1, htss]
          cases hf : getStrField v ("timestamp".toList) with
          | none => rfl
          | some ts =>
            rw [getLastStr_cons]
            cases hgl : (tssOf rest).getLast? with
            | none => rfl
            | some t => rfl

theorem compute_duration_fields (parseTs : Str → Option Int) (m : SessionMetadata) :
    (compute_duration parseTs m).session_id = m.session_id ∧
    (compute_duration parseTs m).project_dir = m.project_dir ∧
    (compute_duration parseTs m).git_branch = m.git_branch ∧
    (compute_duration parseTs m).first_timestamp = m.first_timestamp ∧
    (compute_duration parseTs m).last_timestamp = m.last_timestamp ∧
    (m.first_timestamp = none →
      (compute_duration parseTs m).duration_seconds = m.duration_seconds) := by
  unfold compute_duration
  cases hf : m.first_timestamp with
  | none =>
    cases hl : m.last_timestamp with
    | none =>
      dsimp only
      refine ⟨rfl, rfl, rfl, ?_, ?_, fun _ => rfl⟩ <;>
        first
        | rfl
        | exact hf
        | exact hl
    | some l =>
      dsimp only
      refine ⟨rfl, rfl, rfl, ?_, ?_, fun _ => rfl⟩ <;>
        first
        | rfl
        | exact hf
        | exact hl
  | some f =>
    cases hl : m.last_timestamp with
    | none =>
      dsimp only
      refine ⟨rfl, rfl, rfl, ?_, ?_, fun _ => rfl⟩ <;>
        first
        | rfl
        | exact hf
        | exact hl
    | some l =>
      dsimp only
      cases parseTs f <;> cases parseTs l <;> dsimp only <;>
        refine ⟨rfl, rfl, rfl, ?_, ?_, ?_⟩ <;>
        first
        | rfl
        | exact hf
        | exact hl
        | exact fun _ => rfl
        | exact fun h => Option.noConfusion h

theorem processLine_prompts (m : SessionMetadata) (seen : List Str) (v : Json)
    (m1 : SessionMetadata) (s1 : List Str) (h : processLine m seen v = some (m1, s1)) :
    ∃ qs, (lineUserTexts (some v)).mapM (fun t => rustTruncate t 2000) = some qs ∧
      m1.user_prompts = m.user_prompts ++ qs := by
  rw [processLine_decomp] at h
  cases htt : getStrField v ("type".toList) with
  | none =>
    rw [htt] at h
    injection h with h'
    rw [Prod.mk.injEq] at h'
    refine ⟨[], ?_, ?_⟩
    · rw [lineUserTexts, if_neg (by rw [htt]; exact fun hcon => Option.noConfusion hcon)]
      rfl
    · rw [← h'.1, (mergeIds_fields m v).2.2.2.2.2.2, List.append_nil]
  | some t =>
    rw [htt] at h
    dsimp only at h
    by_cases hu : t = "user".toList
    · rw [if_pos hu] at h
      cases he : extract_user_message v with
      | none => rw [he] at h; cases h
      | some ps =>
        rw [he] at h
        injection h with h'
        rw [Prod.mk.injEq] at h'
        refine ⟨ps, ?_, ?_⟩
        · rw [lineUserTexts_user v (by rw [htt, hu]), he]
        · rw [← h'.1]
          dsimp only
          rw [(mergeIds_fields m v).2.2.2.2.2.2]
    · have hne : ¬ getStrField v ("type".toList) = some ("user".toList) := by
        rw [htt]
        intro hcon
        injection hcon with hc
        exact hu hc
      rw [if_neg hu] at h
      by_cases ha : t = "assistant".toList
      · rw [if_pos ha] at h
        have hs := extract_assistant_stable v (mergeIds m v) seen m1 s1 h
        refine ⟨[], ?_, ?_⟩
        · rw [lineUserTexts, if_neg hne]
          rfl
        · rw [hs.2.2.2.2.2.2, (mergeIds_fields m v).2.2.2.2.2.2, List.append_nil]
      · rw [if_neg ha] at h
        injection h with h'
        rw [Prod.mk.injEq] at h'
        refine ⟨[], ?_, ?_⟩
        · rw [lineUserTexts, if_neg hne]
          rfl
        · rw [← h'.1, (mergeIds_fields m v).2.2.2.2.2.2, List.append_nil]

theorem foldLines_prompts :
    ∀ (lines : List (Option Json)) (m : SessionMetadata) (seen : List Str)
      (m' : SessionMetadata), foldLines m seen lines = some m' →
      ∃ qs, (transcriptUserTexts lines).mapM (fun t => rustTruncate t 2000) = some qs ∧
        m'.user_prompts = m.user_prompts ++ qs := by
  intro lines
  induction lines with
  | nil =>
    intro m seen m' h
    rw [foldLines] at h
    injection h with h'
    exact ⟨[], rfl, by rw [← h', List.append_nil]⟩
  | cons l rest ih =>
    intro m seen m' h
    cases l with
    | none =>
      rw [foldLines] at h
      obtain ⟨qs, h1, h2⟩ := ih m seen m' h
      refine ⟨qs, ?_, h2⟩
      rw [transcriptUserTexts]
      rw [show lineUserTexts none = [] from rfl, List.nil_append]
      exact h1
    | some v =>
      rw [foldLines] at h
      cases hp : processLine m seen v with
      | none => rw [hp] at h; cases h
      | some p =>
        obtain ⟨m1, s1⟩ := p
        rw [hp] at h
        dsimp only at h
        obtain ⟨qs1, hq1, hq2⟩ := processLine_prompts m seen v m1 s1 hp
        obtain ⟨qs2, hr1, hr2⟩ := ih m1 s1 m' h
        refine ⟨qs1 ++ qs2, ?_, ?_⟩
        · rw [transcriptUserTexts, mapM_option_append, hq1, hr1]
          rfl
        · rw [hr2, hq2, List.append_assoc]

/-- C5 (amended): for the streaming format, over arbitrary line sequences,
the stored prompts are exactly the byte-level 2000-truncations of the
qualifying texts in stream order: a user event contributes its plain
string content when accepted (non-empty, not starting with a less-than
sign) plus each accepted text of its non-tool_result array blocks (so one
turn may contribute several prompts), and every other line contributes
none; for the snapshot format, one prompt per user turn with
non-whitespace content (no less-than filter); each prompt is the
2000-byte truncation of its text: unchanged when the text is at most
2000 bytes, and a 2000-byte prefix plus ellipsis when longer (provided
the parser does not panic at the byte boundary). -/
theorem prompts_per_user_turn :
    (∀ (parseTs : Str → Option Int) (lines : List (Option Json)) (m : SessionMetadata),
      parse_transcript parseTs lines = some m →
      (transcriptUserTexts lines).mapM (fun t => rustTruncate t 2000) =
        some m.user_prompts ∧
      m.user_prompts.length = (transcriptUserTexts lines).length) ∧
    (∀ (freshId : Str) (doc : CopilotTranscript) (m : SessionMetadata),
      parse_copilot_json freshId doc = some m →
      ((doc.turns.filter (fun turn =>
            decide (turn.role = "user".toList ∧ trimBoth turn.content ≠ []))).map
          (fun turn => turn.content)).mapM (fun t => rustTruncate t 2000) =
        some m.user_prompts ∧
      m.user_prompts.length =
        (doc.turns.filter (fun turn =>
          decide (turn.role = "user".toList ∧ trimBoth turn.content ≠ []))).length) ∧
    (∀ (s r : Str), rustTruncate s 2000 = some r →
      (byteLen s ≤ 2000 → r = s) ∧
      (2000 < byteLen s → ∃ pre, r = pre ++ "...".toList ∧ byteLen pre = 2000)) := by
  refine ⟨?_, ?_, ?_⟩
  · intro parseTs lines m hparse
    simp only [parse_transcript] at hparse
    cases hfold : foldLines {} [] lines with
    | none => rw [hfold] at hparse; cases hparse
    | some m0 =>
      rw [hfold] at hparse
      simp only [Option.map_some'] at hparse
      injection hparse with hm'
      obtain ⟨qs, h1, h2⟩ := foldLines_prompts lines {} [] m0 hfold
      have hup : m.user_prompts = qs := by
        rw [← hm', compute_duration_user_prompts, h2]
        simp
      constructor
      · rw [hup]
        exact h1
      · rw [hup]
        exact mapM_option_length _ _ _ h1
  · intro freshId doc m hparse
    simp only [parse_copilot_json] at hparse
    have key : ∀ (m0 : SessionMetadata), m0.user_prompts = [] →
        copilotTurnsFold doc.turns m0 = some m →
        ((doc.turns.filter (fun turn =>
              decide (turn.role = "user".toList ∧ trimBoth turn.content ≠ []))).map
            (fun turn => turn.content)).mapM (fun t => rustTruncate t 2000) =
          some m.user_prompts ∧
        m.user_prompts.length =
          (doc.turns.filter (fun turn =>
            decide (turn.role = "user".toList ∧ trimBoth turn.content ≠ []))).length := by
      intro m0 hm0 hfold
      rw [copilotTurnsFold_eq] at hfold
      cases hmm : ((doc.turns.filter (fun turn =>
            decide (turn.role = "user".toList ∧ trimBoth turn.content ≠ []))).map
          (fun turn => turn.content)).mapM (fun t => rustTruncate t 2000) with
      | none => rw [hmm] at hfold; cases hfold
      | some ps =>
        rw [hmm] at hfold
        simp only [Option.map_some'] at hfold
        injection hfold with hm'
        have hup : m.user_prompts = ps := by
          rw [← hm']
          simp [hm0]
        refine ⟨congrArg some hup.symm, ?_⟩
        have hlen := mapM_option_length _ _ _ hmm
        rw [hup, hlen, List.length_map]
    cases hc : doc.captured_at with
    | none =>
      rw [hc] at hparse
      exact key _ rfl hparse
    | some ts =>
      rw [hc] at hparse
      exact key _ rfl hparse
  · intro s r h
    constructor
    · intro hle
      rw [rustTruncate, if_pos hle] at h
      injection h with h'
      exact h'.symm
    · intro hgt
      rw [rustTruncate, if_neg (by omega)] at h
      cases htk : takeBytesExact s 2000 with
      | none => rw [htk] at h; cases h
      | some pre =>
        rw [htk] at h
        simp only [Option.map_some'] at h
        injection h with h'
        exact ⟨pre, h'.symm, takeBytesExact_byteLen s 2000 pre htk⟩

/-- C5 witness: a mixed stream with a skipped line, an assistant event and
one array-content user event carrying a tool_result block and two accepted
text blocks yields exactly those two prompts unchanged. -/
theorem prompts_per_user_turn_witness :
    (transcriptUserTexts mixedLines).mapM (fun t => rustTruncate t 2000) =
      some ["one".toList, "two".toList] := by
  have h := prompts_per_user_turn.1 (fun _ => none) mixedLines
    { user_prompts := ["one".toList, "two".toList] } (by decide)
  simpa using h.1

/-- C8 counterexample: an event carrying the empty-string git branch is
recorded and blocks the later non-empty branch value, so the final branch
is the empty string, not the first non-empty value. -/
theorem branch_empty_blocks_counterexample :
    ((parse_transcript (fun _ => none)
        [some (Json.obj [("gitBranch".toList, Json.str [])]),
         some (Json.obj [("gitBranch".toList, Json.str ("main".toList))])]).map
      SessionMetadata.git_branch) = some (some []) ∧
    ([] : Str) ≠ "main".toList := by
  exact ⟨by decide, by decide⟩

/-- C8 (amended): in the streaming parser the final session id and project
directory are the first non-empty values carried by any event (a present
but empty value does not block later ones), while the final git branch is
the first PRESENT gitBranch value in stream order, even when it is the
empty string: a later non-empty branch after an earlier empty-string
branch is ignored. -/
theorem metadata_first_value_wins :
    ∀ (parseTs : Str → Option Int) (lines : List (Option Json)) (m : SessionMetadata),
      parse_transcript parseTs lines = some m →
      m.session_id = first_nonempty (sidsOf lines) ∧
      m.project_dir = first_nonempty (cwdsOf lines) ∧
      m.git_branch = (branchesOf lines).head? := by
  intro parseTs lines m hp
  simp only [parse_transcript] at hp
  cases hf : foldLines {} [] lines with
  | none => rw [hf] at hp; cases hp
  | some m0 =>
    rw [hf] at hp
    simp only [Option.map_some'] at hp
    injection hp with hp'
    obtain ⟨i1, i2, i3, _, _, _⟩ := foldLines_first_wins lines {} [] m0 hf
    obtain ⟨c1, c2, c3, _, _, _⟩ := compute_duration_fields parseTs m0
    refine ⟨?_, ?_, ?_⟩
    · rw [← hp', c1, i1]
      simp
    · rw [← hp', c2, i2]
      simp
    · rw [← hp', c3, i3]

/-- C8 witness: a single line carrying a session id yields it. -/
theorem metadata_first_value_wins_witness :
    ({ session_id := "abc".toList } : SessionMetadata).session_id =
      first_nonempty (sidsOf [some (Json.obj [("sessionId".toList,
        Json.str ("abc".toList))])]) :=
  (metadata_first_value_wins (fun _ => none)
    [some (Json.obj [("sessionId".toList, Json.str ("abc".toList))])]
    { session_id := "abc".toList } (by decide)).1

/-- C10 counterexample: insert_session stores ended_at and
duration_seconds from the metadata even when first_timestamp is absent, so
they are not necessarily NULL as the claim states. -/
theorem insert_unknown_counterexample :
    metaNoFirst.first_timestamp = none ∧
    insert_session [] metaNoFirst = .ok [rowOfMeta metaNoFirst] ∧
    (rowOfMeta metaNoFirst).ended_at = some ("2025".toList) ∧
    (rowOfMeta metaNoFirst).duration_seconds = some 5 := by
  refine ⟨rfl, by decide, rfl, rfl⟩

/-- C10 (amended): a metadata value without a first timestamp is stored
with started_at equal to the literal text unknown (never NULL), while
ended_at and duration_seconds store the metadata's last_timestamp and
duration_seconds as given; for a metadata produced by either parser
(streaming or snapshot) an absent first timestamp forces both to be
absent, hence NULL; and such a row takes part both in the started_at
ordering of list_sessions and in its date filter through the text
unknown. -/
theorem insert_session_unknown :
    (∀ (meta : SessionMetadata) (store store' : List SessionRow),
      meta.first_timestamp = none → insert_session store meta = .ok store' →
      store' = store ++ [rowOfMeta meta] ∧
      (rowOfMeta meta).started_at = "unknown".toList ∧
      (rowOfMeta meta).ended_at = meta.last_timestamp ∧
      (rowOfMeta meta).duration_seconds = meta.duration_seconds) ∧
    (∀ (parseTs : Str → Option Int) (lines : List (Option Json)) (m : SessionMetadata),
      parse_transcript parseTs lines = some m → m.first_timestamp = none →
      m.last_timestamp = none ∧ m.duration_seconds = none) ∧
    (∀ (freshId : Str) (doc : CopilotTranscript) (m : SessionMetadata),
      parse_copilot_json freshId doc = some m → m.first_timestamp = none →
      m.last_timestamp = none ∧ m.duration_seconds = none) ∧
    (∀ (meta : SessionMetadata), meta.first_timestamp = none →
      (∀ (r : SessionRow) (rows : List SessionRow),
        insertDesc (rowOfMeta meta) (r :: rows) =
          if lexLe r.started_at ("unknown".toList) then rowOfMeta meta :: r :: rows
          else r :: insertDesc (rowOfMeta meta) rows) ∧
      (∀ (dFrom dTo : Str),
        passes_date_filter (rowOfMeta meta) (some dFrom) (some dTo) =
          (lexLe dFrom ("unknown".toList) && lexLe ("unknown".toList) dTo))) := by
  refine ⟨?_, ?_, ?_, ?_⟩
  · intro meta store store' hf hins
    rw [insert_session] at hins
    by_cases hex : session_exists store meta.session_id = true
    · rw [if_pos hex] at hins
      cases hins
    · rw [if_neg hex] at hins
      injection hins with hins'
      refine ⟨hins'.symm, ?_, rfl, rfl⟩
      rw [rowOfMeta]
      rw [hf]
      rfl
  · intro parseTs lines m hp hfnone
    simp only [parse_transcript] at hp
    cases hf : foldLines {} [] lines with
    | none => rw [hf] at hp; cases hp
    | some m0 =>
      rw [hf] at hp
      simp only [Option.map_some'] at hp
      injection hp with hp'
      obtain ⟨_, _, _, i4, i5, i6⟩ := foldLines_first_wins lines {} [] m0 hf
      obtain ⟨_, _, _, c4, c5, c6⟩ := compute_duration_fields parseTs m0
      have hm0f : m0.first_timestamp = none := by
        rw [← hp', c4] at hfnone
        exact hfnone
      have htss : tssOf lines = [] := by
        rw [i4] at hm0f
        simp only [show ({} : SessionMetadata).first_timestamp = none from rfl] at hm0f
        exact List.head?_eq_none_iff.mp hm0f
      constructor
      · rw [← hp', c5, i5, htss]
        rfl
      · rw [← hp', c6 hm0f, i6]
  · intro freshId doc m hp hfn
    simp only [parse_copilot_json] at hp
    rw [copilotTurnsFold_eq] at hp
    cases hmm : (((doc.turns.filter (fun turn =>
          decide (turn.role = "user".toList ∧ trimBoth turn.content ≠ []))).map
        (fun turn => turn.content)).mapM (fun t => rustTruncate t 2000)) with
    | none => rw [hmm] at hp; cases hp
    | some ps =>
      rw [hmm] at hp
      simp only [Option.map_some'] at hp
      injection hp with hp'
      cases hc : doc.captured_at with
      | some ts =>
        rw [hc] at hp'
        rw [← hp'] at hfn
        simp at hfn
      | none =>
        rw [hc] at hp'
        rw [← hp']
        exact ⟨rfl, rfl⟩
  · intro meta hfn
    have hst : (rowOfMeta meta).started_at = "unknown".toList := by
      rw [rowOfMeta, hfn]
      rfl
    constructor
    · intro r rows
      rw [insertDesc, hst]
    · intro dFrom dTo
      simp only [passes_date_filter, hst]

/-- C10 witness: a metadata value with no timestamps at all is stored with
the started_at text unknown. -/
theorem insert_session_unknown_witness :
    (rowOfMeta ({ session_id := "w".toList } : SessionMetadata)).started_at =
      "unknown".toList :=
  (insert_session_unknown.1 { session_id := "w".toList } []
    ([] ++ [rowOfMeta { session_id := "w".toList }]) rfl (by decide)).2.1
